import Mathlib

/-!
Verification of the JSON reports core (converter / validator / extractor).

This file gives a shallow embedding of the three algorithmic modules of the
repository:

* `tools/json_converter.py`   — NameValuePair ⇄ ObjectHierarchy conversion
* `tools/metrics_validator.py` — wildcard pattern matching and rule validation
* `tools/metrics_extractor.py` — key generalization into wildcard patterns

Python dictionaries are modelled as association lists in insertion order
(`List (Str × J)`); a Python dict never holds duplicate keys and `setA`
below reproduces the update-in-place-or-append behaviour of `d[k] = v`.
Python strings are modelled as `List Char` (`Str`).  Python dict equality
(`==`), which is order-insensitive, is modelled by `dictEqv`.
-/

/-- Python strings, modelled as lists of characters. -/
abbrev Str := List Char

/-- JSON scalar leaf values (string, number, boolean, null). -/
inductive Prim where
  | str : Str → Prim
  | int : Int → Prim
  | bool : Bool → Prim
  | null : Prim
deriving DecidableEq

/-- A parsed JSON value: scalar, object (insertion-ordered fields) or array. -/
inductive J where
  | prim : Prim → J
  | obj : List (Str × J) → J
  | arr : List J → J

instance : Inhabited J := ⟨J.prim Prim.null⟩

/-- First-match lookup in an association list, the model of `d[k]` /
`k in d` on a Python dict (whose keys are unique). -/
def lookupA : List (Str × J) → Str → Option J
  | [], _ => none
  | (k', v') :: rest, k => if k' = k then some v' else lookupA rest k

/-- Model of `d[k] = v` on a Python dict: replace in place if the key is
present, otherwise append at the end (insertion order). -/
def setA : List (Str × J) → Str → J → List (Str × J)
  | [], k, v => [(k, v)]
  | (k', v') :: rest, k, v =>
      if k' = k then (k, v) :: rest else (k', v') :: setA rest k v

/-- The keys of an association list, in order. -/
def keysOf (l : List (Str × J)) : List Str := l.map Prod.fst

/-- Model of Python `==` on two dicts represented as association lists:
order-insensitive extensional equality of the key→value maps. -/
def dictEqv (a b : List (Str × J)) : Prop := ∀ k, lookupA a k = lookupA b k

/-! ### Path codec: `path.split('.')` and `'.'.join(segments)` -/

/-- Model of Python `s.split('.')`: `"" ↦ [""]`, `"a..b" ↦ ["a","","b"]`.
The result is always non-empty. -/
def splitDots : Str → List Str
  | [] => [[]]
  | c :: rest =>
      if c = '.' then [] :: splitDots rest
      else
        match splitDots rest with
        | seg :: segs => (c :: seg) :: segs
        | [] => [[c]]

/-- Model of Python `'.'.join(segments)`. -/
def joinDots : List Str → Str
  | [] => []
  | [s] => s
  | s :: rest => s ++ '.' :: joinDots rest

/-- Model of `f"{prefix}.{key}" if prefix else key` (empty prefix is falsy). -/
def dotJoin (pre k : Str) : Str := if pre = [] then k else pre ++ '.' :: k

theorem splitDots_cons_ne (c : Char) (rest : Str) (hc : c ≠ '.') :
    splitDots (c :: rest) =
      (match splitDots rest with
       | seg :: segs => (c :: seg) :: segs
       | [] => [[c]]) := by
  simp [splitDots, hc]

theorem splitDots_ne_nil (s : Str) : splitDots s ≠ [] := by
  induction s with
  | nil => simp [splitDots]
  | cons c rest ih =>
    by_cases hc : c = '.'
    · subst hc; simp [splitDots]
    · rw [splitDots_cons_ne c rest hc]
      cases h : splitDots rest <;> simp

/-- Every segment produced by `splitDots` is free of dots. -/
theorem splitDots_no_dot (s : Str) : ∀ seg ∈ splitDots s, '.' ∉ seg := by
  induction s with
  | nil => simp [splitDots]
  | cons c rest ih =>
    by_cases hc : c = '.'
    · subst hc
      simp only [splitDots, if_pos rfl]
      intro seg hseg
      rcases List.mem_cons.mp hseg with h | h
      · simp [h]
      · exact ih seg h
    · rw [splitDots_cons_ne c rest hc]
      cases h : splitDots rest with
      | nil => exact absurd h (splitDots_ne_nil rest)
      | cons seg0 segs =>
        intro seg hseg
        rcases List.mem_cons.mp hseg with h' | h'
        · subst h'
          intro hmem
          rcases List.mem_cons.mp hmem with h'' | h''
          · exact hc h''.symm
          · exact ih seg0 (h ▸ List.mem_cons_self seg0 segs) h''
        · exact ih seg (h ▸ List.mem_cons_of_mem seg0 h')

theorem splitDots_append_dot (s t : Str) (hs : '.' ∉ s) :
    splitDots (s ++ '.' :: t) = s :: splitDots t := by
  induction s with
  | nil => simp [splitDots]
  | cons c cs ih =>
    have hc : c ≠ '.' := fun h => hs (h ▸ List.mem_cons_self c cs)
    have hcs : '.' ∉ cs := fun h => hs (List.mem_cons_of_mem c h)
    rw [List.cons_append, splitDots_cons_ne c (cs ++ '.' :: t) hc, ih hcs]

theorem splitDots_of_no_dot (s : Str) (hs : '.' ∉ s) : splitDots s = [s] := by
  induction s with
  | nil => simp [splitDots]
  | cons c cs ih =>
    have hc : c ≠ '.' := fun h => hs (h ▸ List.mem_cons_self c cs)
    have hcs : '.' ∉ cs := fun h => hs (List.mem_cons_of_mem c h)
    rw [splitDots_cons_ne c cs hc, ih hcs]

/-- `split` is a left inverse of `join` on non-empty lists of dot-free
segments. -/
theorem splitDots_joinDots (L : List Str) (hne : L ≠ [])
    (hnd : ∀ s ∈ L, '.' ∉ s) : splitDots (joinDots L) = L := by
  induction L with
  | nil => exact absurd rfl hne
  | cons s rest ih =>
    cases rest with
    | nil => exact splitDots_of_no_dot s (hnd s (List.mem_cons_self s []))
    | cons s2 rest2 =>
      have hj : joinDots (s :: s2 :: rest2) = s ++ '.' :: joinDots (s2 :: rest2) := rfl
      rw [hj, splitDots_append_dot s _ (hnd s (List.mem_cons_self _ _))]
      rw [ih (by simp) (fun x hx => hnd x (List.mem_cons_of_mem s hx))]

/-! ### Metrics extractor (`tools/metrics_extractor.py`) -/

/-- Model of Python `part.isdigit()` restricted to ASCII: non-empty and all
characters decimal digits. -/
def isDigitSeg (s : Str) : Bool := !s.isEmpty && s.all Char.isDigit

/-- Embedding of `MetricsExtractor._convert_to_wildcard_pattern`: split the
key on dots, replace each all-digit segment by `*`, and rejoin. -/
def convert_to_wildcard_pattern (key : Str) : Str :=
  joinDots ((splitDots key).map (fun part => if isDigitSeg part then ['*'] else part))

/-- Embedding of `MetricsExtractor.extract_metrics_from_namevalue`: the
wildcard patterns of all keys, deduplicated (a Python `set`) and sorted
(Python `sorted`, lexicographic on code points). -/
def extract_metrics_from_namevalue (data : List (Str × J)) : List Str :=
  List.insertionSort (· ≤ ·)
    ((data.map (fun kv => convert_to_wildcard_pattern kv.1)).dedup)

theorem isDigitSeg_star : isDigitSeg ['*'] = false := by decide

theorem convert_map_no_dot (key : Str) :
    ∀ s ∈ (splitDots key).map (fun part => if isDigitSeg part then ['*'] else part),
      '.' ∉ s := by
  intro s hs
  rcases List.mem_map.mp hs with ⟨part, hpart, hEq⟩
  by_cases h : isDigitSeg part
  · rw [← hEq]; simp only [h, if_true]; decide
  · rw [← hEq]; simp only [h, if_false, Bool.false_eq_true]
    exact splitDots_no_dot key part hpart

/-- Applying the all-digit-to-`*` generalization twice gives the same
string as applying it once. -/
theorem convert_idem (key : Str) :
    convert_to_wildcard_pattern (convert_to_wildcard_pattern key) =
      convert_to_wildcard_pattern key := by
  unfold convert_to_wildcard_pattern
  have hLne : (splitDots key).map
      (fun part => if isDigitSeg part then ['*'] else part) ≠ [] := by
    simp only [ne_eq, List.map_eq_nil_iff]
    exact splitDots_ne_nil key
  rw [splitDots_joinDots _ hLne (convert_map_no_dot key), List.map_map]
  congr 1
  apply List.map_congr_left
  intro part _
  simp only [Function.comp]
  by_cases h : isDigitSeg part
  · simp [h, isDigitSeg_star]
  · simp [h]

theorem mem_extract_iff (data : List (Str × J)) (x : Str) :
    x ∈ extract_metrics_from_namevalue data ↔
      x ∈ data.map (fun kv => convert_to_wildcard_pattern kv.1) := by
  unfold extract_metrics_from_namevalue
  rw [List.Perm.mem_iff (List.perm_insertionSort _ _)]
  exact List.mem_dedup

theorem extract_sorted (data : List (Str × J)) :
    (extract_metrics_from_namevalue data).Sorted (· ≤ ·) :=
  List.sorted_insertionSort _ _

theorem extract_nodup (data : List (Str × J)) :
    (extract_metrics_from_namevalue data).Nodup :=
  ((List.perm_insertionSort _ _).nodup_iff).mpr (List.nodup_dedup _)

theorem extract_mem_fixed (data : List (Str × J)) :
    ∀ x ∈ extract_metrics_from_namevalue data,
      convert_to_wildcard_pattern x = x := by
  intro x hx
  rcases List.mem_map.mp ((mem_extract_iff data x).mp hx) with ⟨kv, _, hEq⟩
  rw [← hEq]
  exact convert_idem kv.1

theorem extract_of_fixed (S : List Str)
    (hfix : ∀ x ∈ S, convert_to_wildcard_pattern x = x)
    (hnd : S.Nodup) (hsort : S.Sorted (· ≤ ·)) :
    extract_metrics_from_namevalue (S.map (fun k => (k, J.prim Prim.null))) = S := by
  unfold extract_metrics_from_namevalue
  rw [List.map_map]
  have h1 : S.map ((fun kv : Str × J => convert_to_wildcard_pattern kv.1) ∘
      (fun k => (k, J.prim Prim.null))) = S := by
    have h2 := List.map_congr_left
      (f := (fun kv : Str × J => convert_to_wildcard_pattern kv.1) ∘
        (fun k => (k, J.prim Prim.null)))
      (g := id) (l := S) (fun a ha => hfix a ha)
    rw [h2, List.map_id]
  rw [h1, List.dedup_eq_self.mpr hnd, List.Sorted.insertionSort_eq hsort]

/-- C8: the key-to-pattern generalization is idempotent: applying the
segment-wise all-digit-to-`*` substitution (`_convert_to_wildcard_pattern`)
to its own output yields the same string, and hence re-running extraction on
the extracted pattern set (used as flat keys) yields the same pattern set. -/
theorem claim_C8_generalization_idempotent :
    (∀ key : Str,
      convert_to_wildcard_pattern (convert_to_wildcard_pattern key) =
        convert_to_wildcard_pattern key) ∧
    ∀ data : List (Str × J),
      extract_metrics_from_namevalue
        ((extract_metrics_from_namevalue data).map (fun k => (k, J.prim Prim.null))) =
        extract_metrics_from_namevalue data := by
  refine ⟨convert_idem, fun data => ?_⟩
  exact extract_of_fixed _ (extract_mem_fixed data) (extract_nodup data)
    (extract_sorted data)

/-- C9: `extract_metrics_from_namevalue` always returns a duplicate-free
list sorted in lexicographic (code-point) order — the deterministic order is
produced by the extraction operation itself. -/
theorem claim_C9_extract_sorted_dedup :
    ∀ data : List (Str × J),
      (extract_metrics_from_namevalue data).Sorted (· ≤ ·) ∧
      (extract_metrics_from_namevalue data).Nodup :=
  fun data => ⟨extract_sorted data, extract_nodup data⟩

/-! ### Pattern compilation (`MetricsValidator.pattern_to_regex`)

The Python code builds a regex string by four successive `re.sub` passes
(`%` → `[^.]*`, then `*` → `[^.]*`, then `{i}` → `[0-9]+`, then `.` → `\.`)
and anchors it with `^`/`$`.  Each pass is embedded as a recursive string
rewrite below.  Note that the second pass rescans the output of the first,
so the `*` inside the replacement text of `%` is itself replaced. -/

/-- Pass 1 of `pattern_to_regex`: `re.sub(r'%', r'[^.]*', pattern)`. -/
def subPct : Str → Str
  | [] => []
  | c :: rest =>
      if c = '%' then '[' :: '^' :: '.' :: ']' :: '*' :: subPct rest
      else c :: subPct rest

/-- Pass 2 of `pattern_to_regex`: `re.sub(r'\*', r'[^.]*', ...)`. -/
def subStar : Str → Str
  | [] => []
  | c :: rest =>
      if c = '*' then '[' :: '^' :: '.' :: ']' :: '*' :: subStar rest
      else c :: subStar rest

/-- Pass 3 of `pattern_to_regex`: `re.sub(r'\{i\}', r'[0-9]+', ...)`. -/
def subBraceI : Str → Str
  | [] => []
  | '{' :: 'i' :: '}' :: rest => '[' :: '0' :: '-' :: '9' :: ']' :: '+' :: subBraceI rest
  | c :: rest => c :: subBraceI rest

/-- Pass 4 of `pattern_to_regex`: `re.sub(r'\.', r'\.', ...)` (escape dots,
including the dots inside previously inserted character classes). -/
def escDot : Str → Str
  | [] => []
  | c :: rest =>
      if c = '.' then '\\' :: '.' :: escDot rest
      else c :: escDot rest

/-- Embedding of `MetricsValidator.pattern_to_regex`: the four passes and
the `^...$` anchors. -/
def pattern_to_regex (p : Str) : Str :=
  '^' :: (escDot (subBraceI (subStar (subPct p))) ++ ['$'])

/-- The net effect of the four passes as a single left-to-right rewrite:
`%` becomes `[^\.][^\.]*` (because pass 2 rewrites the `*` that pass 1
inserted), `*` becomes `[^\.]*`, `{i}` becomes `[0-9]+`, and `.` becomes
`\.`. -/
def singlePass : Str → Str
  | [] => []
  | '%' :: rest =>
      '[' :: '^' :: '\\' :: '.' :: ']' :: '[' :: '^' :: '\\' :: '.' :: ']' :: '*' :: singlePass rest
  | '*' :: rest => '[' :: '^' :: '\\' :: '.' :: ']' :: '*' :: singlePass rest
  | '{' :: 'i' :: '}' :: rest => '[' :: '0' :: '-' :: '9' :: ']' :: '+' :: singlePass rest
  | '.' :: rest => '\\' :: '.' :: singlePass rest
  | c :: rest => c :: singlePass rest

theorem subPct_cons_ne (c : Char) (r : Str) (h : c ≠ '%') :
    subPct (c :: r) = c :: subPct r := by
  simp [subPct, h]

theorem subStar_cons_ne (c : Char) (r : Str) (h : c ≠ '*') :
    subStar (c :: r) = c :: subStar r := by
  simp [subStar, h]

theorem escDot_cons_ne (c : Char) (r : Str) (h : c ≠ '.') :
    escDot (c :: r) = c :: escDot r := by
  simp [escDot, h]

theorem subBraceI_cons_ne (c : Char) (r : Str) (h : c ≠ '{') :
    subBraceI (c :: r) = c :: subBraceI r := by
  rw [subBraceI.eq_def]
  split
  · simp_all
  · simp_all
  · rename_i heq
    rw [List.cons.injEq] at heq
    rw [heq.1, heq.2]

theorem subStar_append (a b : Str) :
    subStar (a ++ b) = subStar a ++ subStar b := by
  induction a with
  | nil => rfl
  | cons c cs ih => by_cases h : c = '*' <;> simp [subStar, h, ih]

theorem escDot_append (a b : Str) :
    escDot (a ++ b) = escDot a ++ escDot b := by
  induction a with
  | nil => rfl
  | cons c cs ih => by_cases h : c = '.' <;> simp [escDot, h, ih]

theorem singlePass_cons_ne (c : Char) (rest : Str) (h1 : c ≠ '%') (h2 : c ≠ '*')
    (h4 : c ≠ '.') (h3 : ∀ r1, c = '{' → rest = 'i' :: '}' :: r1 → False) :
    singlePass (c :: rest) = c :: singlePass rest := by
  rw [singlePass.eq_def]
  split
  · simp_all
  · simp_all
  · simp_all
  · rename_i heq
    rw [List.cons.injEq] at heq
    exact absurd heq.2 (fun h => h3 _ heq.1 h)
  · simp_all
  · rename_i heq
    rw [List.cons.injEq] at heq
    rw [heq.1, heq.2]

theorem subBraceI_brace_not_i (T : Str) (hT : ∀ X, T ≠ 'i' :: '}' :: X) :
    subBraceI ('{' :: T) = '{' :: subBraceI T := by
  rw [subBraceI.eq_def]
  split
  · simp_all
  · rename_i heq
    rw [List.cons.injEq] at heq
    exact absurd heq.2 (hT _)
  · rename_i heq
    rw [List.cons.injEq] at heq
    rw [← heq.1, heq.2]

theorem sps_ne (h : Char) (r : Str) (h1 : h ≠ '%') (h2 : h ≠ '*') :
    subStar (subPct (h :: r)) = h :: subStar (subPct r) := by
  rw [subPct_cons_ne h r h1, subStar_cons_ne h _ h2]

theorem sps_head (h : Char) (r : Str) :
    ∃ T, subStar (subPct (h :: r)) = h :: T ∨ subStar (subPct (h :: r)) = '[' :: T := by
  by_cases h1 : h = '%'
  · subst h1
    refine ⟨'^' :: '.' :: ']' :: '[' :: '^' :: '.' :: ']' :: '*' :: subStar (subPct r),
      Or.inr ?_⟩
    simp [subPct, subStar]
  · by_cases h2 : h = '*'
    · subst h2
      refine ⟨'^' :: '.' :: ']' :: '*' :: subStar (subPct r), Or.inr ?_⟩
      rw [subPct_cons_ne _ r (by decide)]
      simp [subStar]
    · exact ⟨subStar (subPct r), Or.inl (sps_ne h r h1 h2)⟩

/-- The composition of the four `re.sub` passes equals the single-pass
rewrite: in particular every `%` in the pattern ends up compiled to
`[^\.][^\.]*` (one or more non-dot characters) while every `*` is compiled
to `[^\.]*` (zero or more). -/
theorem sub_pipeline (p : Str) :
    escDot (subBraceI (subStar (subPct p))) = singlePass p := by
  induction p using singlePass.induct with
  | case1 => rfl
  | case2 rest ih => simp [subPct, subStar, subBraceI, escDot, singlePass, ih]
  | case3 rest ih =>
    rw [subPct_cons_ne _ rest (by decide)]
    simp [subStar, subBraceI, escDot, singlePass, ih]
  | case4 rest ih =>
    rw [subPct_cons_ne _ _ (by decide), subPct_cons_ne _ _ (by decide),
      subPct_cons_ne _ _ (by decide)]
    rw [subStar_cons_ne _ _ (by decide), subStar_cons_ne _ _ (by decide),
      subStar_cons_ne _ _ (by decide)]
    simp [subBraceI, escDot, singlePass, ih]
  | case5 rest ih =>
    rw [subPct_cons_ne _ rest (by decide), subStar_cons_ne _ _ (by decide)]
    rw [subBraceI_cons_ne _ _ (by decide)]
    simp [escDot, singlePass, ih]
  | case6 c rest h1 h2 h3 h4 ih =>
    have h1' : c ≠ '%' := fun h => h1 h
    have h2' : c ≠ '*' := fun h => h2 h
    have h4' : c ≠ '.' := fun h => h4 h
    by_cases hc : c = '{'
    · subst hc
      have hT : ∀ X, subStar (subPct rest) ≠ 'i' :: '}' :: X := by
        intro X hEq
        cases rest with
        | nil => simp [subPct, subStar] at hEq
        | cons h r2 =>
          rcases sps_head h r2 with ⟨T1, hh | hh⟩
          · rw [hh] at hEq
            rw [List.cons.injEq] at hEq
            have hhi : h = 'i' := hEq.1
            subst hhi
            rw [sps_ne _ r2 (by decide) (by decide)] at hh
            have hT1 : T1 = subStar (subPct r2) := by
              exact (List.cons.injEq _ _ _ _).mp hh |>.2.symm
            rw [hT1] at hEq
            cases r2 with
            | nil => simp [subPct, subStar] at hEq
            | cons g r3 =>
              rcases sps_head g r3 with ⟨T2, hg | hg⟩
              · rw [hg] at hEq
                rw [List.cons.injEq] at hEq
                have : g = '}' := hEq.2.1
                exact h3 r3 rfl (by rw [this])
              · rw [hg] at hEq
                rw [List.cons.injEq] at hEq
                exact absurd hEq.2.1 (by decide)
          · rw [hh] at hEq
            rw [List.cons.injEq] at hEq
            exact absurd hEq.1 (by decide)
      rw [subPct_cons_ne _ rest (by decide), subStar_cons_ne _ _ (by decide)]
      rw [subBraceI_brace_not_i _ hT, escDot_cons_ne _ _ (by decide), ih]
      rw [singlePass_cons_ne _ rest (by decide) (by decide) (by decide) h3]
    · rw [sps_ne c rest h1' h2', subBraceI_cons_ne c _ hc,
        escDot_cons_ne c _ h4', ih,
        singlePass_cons_ne c rest h1' h2' h4' h3]

/-! ### Regex matching

The regexes produced by `pattern_to_regex` use only a small dialect:
literal characters, `\c` escapes, the classes `[^\.]` and `[0-9]`, the
quantifiers `*` and `+`, and the `^`/`$` anchors.  `parseRE` parses that
dialect into a list of quantified character classes and `reMatchL` is a
backtracking matcher for such a list; `re.match` against a regex anchored
at both ends is full-string matching.  (Python's `$` would additionally
accept one trailing newline; no key in scope ends in a newline, and the
model uses strict end-of-string.) -/

/-- A character class of the produced regex dialect. -/
inductive CClass where
  | lit : Char → CClass
  | nonDot : CClass
  | digit : CClass
deriving DecidableEq

/-- A quantifier: exactly one, zero-or-more, one-or-more. -/
inductive Quant where
  | one : Quant
  | star : Quant
  | plus : Quant
deriving DecidableEq

/-- A quantified character class. -/
abbrev Atom := CClass × Quant

def matchCls : CClass → Char → Bool
  | .lit a, c => c == a
  | .nonDot, c => c != '.'
  | .digit, c => c.isDigit

/-- One step of the matcher on a known head character `c`: `eval k` decides
whether the atom list `k` matches the remaining tail. -/
def reMatchAux (eval : List Atom → Bool) (c : Char) : List Atom → Bool
  | [] => false
  | (cls, Quant.one) :: rest => matchCls cls c && eval rest
  | (cls, Quant.plus) :: rest => matchCls cls c && eval ((cls, Quant.star) :: rest)
  | (cls, Quant.star) :: rest =>
      (matchCls cls c && eval ((cls, Quant.star) :: rest)) || reMatchAux eval c rest

/-- Backtracking full match of an atom list against a string. -/
def reMatchL : Str → List Atom → Bool
  | [], atoms => atoms.all (fun a => a.2 == Quant.star)
  | c :: cs, atoms => reMatchAux (fun k => reMatchL cs k) c atoms

/-- Parser for the regex dialect produced by `pattern_to_regex` (after
stripping the anchors): classes `[^\.]` and `[0-9]`, `\c` escapes, `*`/`+`
quantifiers, all other characters literal. -/
def parseRE : Str → List Atom
  | [] => []
  | '[' :: '^' :: '\\' :: '.' :: ']' :: '*' :: rest => (.nonDot, .star) :: parseRE rest
  | '[' :: '^' :: '\\' :: '.' :: ']' :: '+' :: rest => (.nonDot, .plus) :: parseRE rest
  | '[' :: '^' :: '\\' :: '.' :: ']' :: rest => (.nonDot, .one) :: parseRE rest
  | '[' :: '0' :: '-' :: '9' :: ']' :: '*' :: rest => (.digit, .star) :: parseRE rest
  | '[' :: '0' :: '-' :: '9' :: ']' :: '+' :: rest => (.digit, .plus) :: parseRE rest
  | '[' :: '0' :: '-' :: '9' :: ']' :: rest => (.digit, .one) :: parseRE rest
  | '\\' :: c :: '*' :: rest => (.lit c, .star) :: parseRE rest
  | '\\' :: c :: '+' :: rest => (.lit c, .plus) :: parseRE rest
  | '\\' :: c :: rest => (.lit c, .one) :: parseRE rest
  | c :: '*' :: rest => (.lit c, .star) :: parseRE rest
  | c :: '+' :: rest => (.lit c, .plus) :: parseRE rest
  | c :: rest => (.lit c, .one) :: parseRE rest

/-- Drop the leading `^` anchor. -/
def stripCaret : Str → Str
  | '^' :: r => r
  | r => r

/-- Drop the trailing `$` anchor. -/
def stripDollar (l : Str) : Str :=
  if l.getLast? = some '$' then l.dropLast else l

/-- The compiled matcher of a pattern: `pattern_to_regex` followed by
parsing the (anchored) regex. -/
def compiledAtoms (p : Str) : List Atom :=
  parseRE (stripDollar (stripCaret (pattern_to_regex p)))

/-- Embedding of `MetricsValidator.find_matching_keys`: all keys of the
flattened data whose full string matches the compiled pattern, in data
order. -/
def find_matching_keys (data : List (Str × J)) (pattern : Str) : List Str :=
  (data.map Prod.fst).filter (fun k => reMatchL k (compiledAtoms pattern))

theorem reMatchL_nonDot_star (s : Str) :
    reMatchL s [(CClass.nonDot, Quant.star)] = s.all (fun c => c != '.') := by
  induction s with
  | nil => rfl
  | cons c cs ih => simp [reMatchL, reMatchAux, matchCls, ih]

theorem reMatchL_nonDot_plus_form (s : Str) :
    reMatchL s [(CClass.nonDot, Quant.one), (CClass.nonDot, Quant.star)] =
      (!s.isEmpty && s.all (fun c => c != '.')) := by
  cases s with
  | nil => rfl
  | cons c cs => simp [reMatchL, reMatchAux, matchCls, reMatchL_nonDot_star]

theorem reMatchL_digit_star (s : Str) :
    reMatchL s [(CClass.digit, Quant.star)] = s.all Char.isDigit := by
  induction s with
  | nil => rfl
  | cons c cs ih => simp [reMatchL, reMatchAux, matchCls, ih]

theorem reMatchL_digit_plus (s : Str) :
    reMatchL s [(CClass.digit, Quant.plus)] = (!s.isEmpty && s.all Char.isDigit) := by
  cases s with
  | nil => rfl
  | cons c cs => simp [reMatchL, reMatchAux, matchCls, reMatchL_digit_star]

/-- C1 counterexample: the wildcards `%` and `*` do not compile to matchers
with identical semantics.  On the key `A..B` (an empty segment at the
wildcard position) the pattern `A.*.B` matches but `A.%.B` does not, so a
zero-length match is legal for `*` and illegal for `%`. -/
theorem claim_C1_counterexample :
    find_matching_keys [(("A..B").data, J.prim Prim.null)] ("A.%.B").data = [] ∧
    find_matching_keys [(("A..B").data, J.prim Prim.null)] ("A.*.B").data =
      [("A..B").data] := by
  decide

/-- C1 (amended): because the `*` substitution pass rescans the output of
the `%` pass, `pattern_to_regex` rewrites every `%` to `[^\.][^\.]*` and
every `*` to `[^\.]*` (theorem `sub_pipeline`, restated here through
`singlePass`).  Consequently `*` compiles to a matcher accepting zero or
more non-dot characters (zero-length match legal) while `%` compiles to a
matcher accepting one or more non-dot characters (zero-length match
illegal); the two agree on all non-empty non-dot runs. -/
theorem claim_C1_amended_wildcard_semantics :
    (∀ p : Str, pattern_to_regex p = '^' :: (singlePass p ++ ['$'])) ∧
    parseRE (singlePass ['*']) = [(CClass.nonDot, Quant.star)] ∧
    parseRE (singlePass ['%']) = [(CClass.nonDot, Quant.one), (CClass.nonDot, Quant.star)] ∧
    (∀ s : Str, reMatchL s [(CClass.nonDot, Quant.star)] = s.all (fun c => c != '.')) ∧
    (∀ s : Str, reMatchL s [(CClass.nonDot, Quant.one), (CClass.nonDot, Quant.star)] =
      (!s.isEmpty && s.all (fun c => c != '.'))) := by
  refine ⟨fun p => ?_, by decide, by decide, reMatchL_nonDot_star,
    reMatchL_nonDot_plus_form⟩
  unfold pattern_to_regex
  rw [sub_pipeline p]

/-- C5: the pattern `Device.WiFi.Radio.{i}.Stats.BytesSent` matches the key
`Device.WiFi.Radio.1.Stats.BytesSent` in any flat document containing it,
never matches `Device.WiFi.Radio.abc.Stats.BytesSent`, and the `{i}` token
(compiled to `[0-9]+`) matches exactly the non-empty all-digit runs. -/
theorem claim_C5_digit_wildcard :
    (∀ data : List (Str × J),
      ("Device.WiFi.Radio.1.Stats.BytesSent").data ∈ keysOf data →
      ("Device.WiFi.Radio.1.Stats.BytesSent").data ∈
        find_matching_keys data ("Device.WiFi.Radio.{i}.Stats.BytesSent").data) ∧
    (∀ data : List (Str × J),
      ("Device.WiFi.Radio.abc.Stats.BytesSent").data ∉
        find_matching_keys data ("Device.WiFi.Radio.{i}.Stats.BytesSent").data) ∧
    (∀ s : Str, reMatchL s [(CClass.digit, Quant.plus)] =
      (!s.isEmpty && s.all Char.isDigit)) := by
  refine ⟨fun data hmem => ?_, fun data hmem => ?_, reMatchL_digit_plus⟩
  · exact List.mem_filter.mpr ⟨hmem, by decide⟩
  · have := (List.mem_filter.mp hmem).2
    revert this
    decide

/-! ### Metrics validator (`tools/metrics_validator.py`) -/

/-- The detection result of `MetricsValidator.detect_format`. -/
inductive Format where
  | namevalue : Format
  | objecthierarchy : Format
  | unknown : Format
deriving DecidableEq

/-- Embedding of `MetricsValidator.detect_format`: sample the first five
top-level keys of a mapping; if any contains a dot the document is flat
NameValuePair, otherwise ObjectHierarchy; non-mappings are unknown. -/
def detect_format : J → Format
  | J.obj fields =>
      if ((fields.map Prod.fst).take 5).any (fun k => k.contains '.') then
        Format.namevalue
      else Format.objecthierarchy
  | _ => Format.unknown

/-- Decimal digits of a natural number (model of Python `f"{i}"`), with an
explicit fuel argument so that the definition is structural. -/
def natDigitsAux : Nat → Nat → Str
  | 0, _ => []
  | fuel + 1, n =>
      if n < 10 then [Nat.digitChar n]
      else natDigitsAux fuel (n / 10) ++ [Nat.digitChar (n % 10)]

/-- Decimal representation of a natural number. -/
def natDigits (n : Nat) : Str := natDigitsAux (n + 1) n

/-- Model of `f"{current_prefix}[{i}]"`: the bracketed index suffix used for
list elements. -/
def brackJoin (pre : Str) (i : Nat) : Str := pre ++ '[' :: (natDigits i ++ [']'])

mutual

/-- Embedding of the dict branch of `flatten_object_hierarchy`'s inner
`flatten_recursive` (identical in `metrics_validator.py` and
`metrics_extractor.py`): dict and list values are descended, scalars are
emitted at the dot-joined path. -/
def flattenOHFields : List (Str × J) → Str → List (Str × J) → List (Str × J)
  | [], _, acc => acc
  | (k, J.obj sub) :: rest, pre, acc =>
      flattenOHFields rest pre (flattenOHFields sub (dotJoin pre k) acc)
  | (k, J.arr xs) :: rest, pre, acc =>
      flattenOHFields rest pre (flattenOHItems xs (dotJoin pre k) 0 acc)
  | (k, J.prim p) :: rest, pre, acc =>
      flattenOHFields rest pre (setA acc (dotJoin pre k) (J.prim p))

/-- Embedding of the list branch of `flatten_recursive`: element `i` is
processed under the bracketed prefix `prefix[i]`. -/
def flattenOHItems : List J → Str → Nat → List (Str × J) → List (Str × J)
  | [], _, _, acc => acc
  | J.obj sub :: rest, pre, i, acc =>
      flattenOHItems rest pre (i + 1) (flattenOHFields sub (brackJoin pre i) acc)
  | J.arr xs :: rest, pre, i, acc =>
      flattenOHItems rest pre (i + 1) (flattenOHItems xs (brackJoin pre i) 0 acc)
  | J.prim p :: rest, pre, i, acc =>
      flattenOHItems rest pre (i + 1) (setA acc (brackJoin pre i) (J.prim p))

end

/-- Embedding of `MetricsValidator.flatten_object_hierarchy` (top-level
dispatch of `flatten_recursive`; a scalar document flattens to nothing). -/
def flatten_object_hierarchy (data : J) : List (Str × J) :=
  match data with
  | J.obj f => flattenOHFields f [] []
  | J.arr xs => flattenOHItems xs [] 0 []
  | J.prim _ => []

/-- A validation rule: a name and its list of patterns. -/
structure Rule where
  name : Str
  patterns : List Str
deriving DecidableEq

/-- A rule catalog (validation configuration): a name and its rules. -/
structure Config where
  name : Str
  rules : List Rule
deriving DecidableEq

/-- One `found_metrics` entry of the validation results. -/
structure FoundMetric where
  pattern : Str
  instances_found : Nat
  instance_keys : List Str
  rule : Str
deriving DecidableEq

/-- One `missing_metrics` entry of the validation results. -/
structure MissingMetric where
  pattern : Str
  rule : Str
deriving DecidableEq

/-- The `validation_results` dictionary built by `validate_metrics`. -/
structure ValidationResults where
  found_metrics : List FoundMetric
  missing_metrics : List MissingMetric
  total_expected : Nat
  total_found : Nat
  total_instances : Nat
  validation_config : Str
deriving DecidableEq

/-- The body of the inner pattern loop of `validate_metrics`: bump
`total_expected`, then record the pattern as found (with its matching keys)
or as missing. -/
def processPattern (flat : List (Str × J)) (ruleName : Str)
    (res : ValidationResults) (pattern : Str) : ValidationResults :=
  let matching := find_matching_keys flat pattern
  let res1 := { res with total_expected := res.total_expected + 1 }
  if matching.isEmpty then
    { res1 with missing_metrics := res1.missing_metrics ++ [⟨pattern, ruleName⟩] }
  else
    { res1 with
        total_found := res1.total_found + 1,
        total_instances := res1.total_instances + matching.length,
        found_metrics :=
          res1.found_metrics ++ [⟨pattern, matching.length, matching, ruleName⟩] }

/-- The freshly initialized `validation_results`. -/
def initResults (cfgName : Str) : ValidationResults := ⟨[], [], 0, 0, 0, cfgName⟩

/-- The rule/pattern double loop of `validate_metrics` over already
flattened data. -/
def runRules (flat : List (Str × J)) (config : Config) : ValidationResults :=
  config.rules.foldl
    (fun res rule => rule.patterns.foldl (processPattern flat rule.name) res)
    (initResults config.name)

/-- Embedding of `MetricsValidator.validate_metrics`: detect the format,
flatten if hierarchical, reject unknown formats, then run the rules. -/
def validate_metrics (data : J) (config : Config) : Except String ValidationResults :=
  match detect_format data, data with
  | Format.objecthierarchy, _ => Except.ok (runRules (flatten_object_hierarchy data) config)
  | Format.namevalue, J.obj fields => Except.ok (runRules fields config)
  | Format.namevalue, _ => Except.error "unreachable"
  | Format.unknown, _ => Except.error "Unsupported data format"

/-- The statistics dictionary of `get_validation_stats`; the Python float
`success_rate` is modelled as a rational number. -/
structure ValidationStats where
  total_expected : Nat
  total_found : Nat
  total_missing : Nat
  total_instances : Nat
  success_rate : ℚ
  config_name : Str

/-- Embedding of `MetricsValidator.get_validation_stats`. -/
def get_validation_stats (r : ValidationResults) : ValidationStats :=
  ⟨r.total_expected, r.total_found, r.missing_metrics.length, r.total_instances,
    if r.total_expected > 0 then
      (r.total_found : ℚ) / (r.total_expected : ℚ) * 100
    else 0,
    r.validation_config⟩

/-- All (rule name, pattern) pairs of a catalog, in rule order. -/
def rulePatternPairs (config : Config) : List (Str × Str) :=
  config.rules.flatMap (fun r => r.patterns.map (fun p => (r.name, p)))

/-- Specification of `found_metrics` taken from the spec's words: one entry
per (rule, pattern) pair with at least one matching key, carrying the
pattern, the match count, the matching keys and the rule name. -/
def specFoundOf (flat : List (Str × J)) (pairs : List (Str × Str)) : List FoundMetric :=
  pairs.filterMap (fun rp =>
    let ms := find_matching_keys flat rp.2
    if ms.isEmpty then none else some ⟨rp.2, ms.length, ms, rp.1⟩)

/-- Specification of `missing_metrics` taken from the spec's words: one
entry per (rule, pattern) pair with no matching key. -/
def specMissingOf (flat : List (Str × J)) (pairs : List (Str × Str)) : List MissingMetric :=
  pairs.filterMap (fun rp =>
    if (find_matching_keys flat rp.2).isEmpty then some ⟨rp.2, rp.1⟩ else none)

theorem patterns_foldl_spec (flat : List (Str × J)) (rn : Str) (ps : List Str) :
    ∀ res : ValidationResults,
      ps.foldl (processPattern flat rn) res =
        { found_metrics := res.found_metrics ++
            specFoundOf flat (ps.map (fun p => (rn, p))),
          missing_metrics := res.missing_metrics ++
            specMissingOf flat (ps.map (fun p => (rn, p))),
          total_expected := res.total_expected + ps.length,
          total_found := res.total_found +
            (specFoundOf flat (ps.map (fun p => (rn, p)))).length,
          total_instances := res.total_instances +
            ((specFoundOf flat (ps.map (fun p => (rn, p)))).map
              (fun fm => fm.instances_found)).sum,
          validation_config := res.validation_config } := by
  induction ps with
  | nil =>
    intro res
    simp [specFoundOf, specMissingOf]
  | cons p ps ih =>
    intro res
    rw [List.foldl_cons, ih]
    by_cases h : find_matching_keys flat p = []
    · simp [processPattern, List.isEmpty_iff, h, specFoundOf, specMissingOf,
        List.filterMap_cons, List.append_assoc, Nat.add_assoc]
      omega
    · simp [processPattern, List.isEmpty_iff, h, specFoundOf, specMissingOf,
        List.filterMap_cons, List.append_assoc, Nat.add_assoc]
      omega

theorem rules_foldl_spec (flat : List (Str × J)) (rules : List Rule) :
    ∀ res : ValidationResults,
      rules.foldl
        (fun res rule => rule.patterns.foldl (processPattern flat rule.name) res) res =
        { found_metrics := res.found_metrics ++
            specFoundOf flat (rules.flatMap (fun r => r.patterns.map (fun p => (r.name, p)))),
          missing_metrics := res.missing_metrics ++
            specMissingOf flat (rules.flatMap (fun r => r.patterns.map (fun p => (r.name, p)))),
          total_expected := res.total_expected +
            (rules.flatMap (fun r => r.patterns.map (fun p => (r.name, p)))).length,
          total_found := res.total_found +
            (specFoundOf flat
              (rules.flatMap (fun r => r.patterns.map (fun p => (r.name, p))))).length,
          total_instances := res.total_instances +
            ((specFoundOf flat
              (rules.flatMap (fun r => r.patterns.map (fun p => (r.name, p))))).map
                (fun fm => fm.instances_found)).sum,
          validation_config := res.validation_config } := by
  induction rules with
  | nil =>
    intro res
    simp [specFoundOf, specMissingOf]
  | cons r rs ih =>
    intro res
    rw [List.foldl_cons, patterns_foldl_spec flat r.name r.patterns res, ih]
    simp [specFoundOf, specMissingOf, List.flatMap_cons, List.filterMap_append,
      List.append_assoc, Nat.add_assoc]

/-- C3: for every flat document and rule catalog, `validate_metrics` counts
one unit of `total_expected` per pattern per rule; a pattern with matches
contributes exactly 1 to `total_found`, its number of matching keys to
`total_instances`, and one `found_metrics` entry carrying the pattern, the
match count, the matching keys and the rule name; a pattern without matches
contributes exactly one `missing_metrics` entry with the pattern and the
rule name.  Presence is binary: `total_found` is the number of found
patterns, however many instances each has. -/
theorem claim_C3_validation_counting :
    ∀ (fields : List (Str × J)) (config : Config),
      detect_format (J.obj fields) = Format.namevalue →
      validate_metrics (J.obj fields) config = Except.ok (runRules fields config) ∧
      (runRules fields config).total_expected = (rulePatternPairs config).length ∧
      (runRules fields config).found_metrics =
        specFoundOf fields (rulePatternPairs config) ∧
      (runRules fields config).missing_metrics =
        specMissingOf fields (rulePatternPairs config) ∧
      (runRules fields config).total_found =
        (specFoundOf fields (rulePatternPairs config)).length ∧
      (runRules fields config).total_instances =
        ((specFoundOf fields (rulePatternPairs config)).map
          (fun fm => fm.instances_found)).sum := by
  intro fields config h
  refine ⟨by simp [validate_metrics, h], ?_⟩
  unfold runRules rulePatternPairs
  rw [rules_foldl_spec fields config.rules (initResults config.name)]
  simp [initResults]

/-- Witness for C3 at a concrete flat document and a one-rule catalog. -/
theorem claim_C3_validation_counting_witness :
    validate_metrics (J.obj [(("a.b").data, J.prim Prim.null)])
        ⟨("cfg").data, [⟨("r1").data, [['%']]⟩]⟩ =
      Except.ok (runRules [(("a.b").data, J.prim Prim.null)]
        ⟨("cfg").data, [⟨("r1").data, [['%']]⟩]⟩) ∧
    (runRules [(("a.b").data, J.prim Prim.null)]
        ⟨("cfg").data, [⟨("r1").data, [['%']]⟩]⟩).total_expected =
      (rulePatternPairs ⟨("cfg").data, [⟨("r1").data, [['%']]⟩]⟩).length :=
  ⟨(claim_C3_validation_counting _ _ (by decide)).1,
   (claim_C3_validation_counting _ _ (by decide)).2.1⟩

/-- C6: `detect_format` is total and returns exactly one of the three
format values: for a mapping it samples at most the first five top-level
keys and answers NameValuePair exactly when a sampled key contains a dot,
otherwise ObjectHierarchy (so never Unknown, and `{}` is ObjectHierarchy);
non-mapping input is Unknown. -/
theorem claim_C6_detect_format_total :
    (∀ j : J, detect_format j = Format.namevalue ∨
      detect_format j = Format.objecthierarchy ∨ detect_format j = Format.unknown) ∧
    detect_format (J.obj []) = Format.objecthierarchy ∧
    (∀ fields : List (Str × J), detect_format (J.obj fields) ≠ Format.unknown) ∧
    (∀ fields : List (Str × J),
      detect_format (J.obj fields) = Format.namevalue ↔
        ∃ k ∈ (fields.map Prod.fst).take 5, '.' ∈ k) ∧
    (∀ p, detect_format (J.prim p) = Format.unknown) ∧
    (∀ xs, detect_format (J.arr xs) = Format.unknown) := by
  refine ⟨fun j => ?_, rfl, fun fields => ?_, fun fields => ?_,
    fun p => rfl, fun xs => rfl⟩
  · cases j with
    | obj fields =>
      by_cases h : ∃ k ∈ (fields.map Prod.fst).take 5, '.' ∈ k
      · left; simp [detect_format, h]
      · right; left; simp [detect_format, h]
    | prim p => right; right; rfl
    | arr xs => right; right; rfl
  · by_cases h : ∃ k ∈ (fields.map Prod.fst).take 5, '.' ∈ k <;>
      simp [detect_format, h]
  · by_cases h : ∃ k ∈ (fields.map Prod.fst).take 5, '.' ∈ k
    · simp [detect_format, h]
    · simp [detect_format, h]

/-- C7: after any successful validation call the success rate equals
`total_found / total_expected * 100`, and when `total_expected = 0` (for
example with an empty rules list) it is defined as 0 — no division by zero
occurs and no error is raised. -/
theorem claim_C7_success_rate :
    ∀ (data : J) (config : Config) (r : ValidationResults),
      validate_metrics data config = Except.ok r →
      ((get_validation_stats r).success_rate =
        if r.total_expected = 0 then 0
        else (r.total_found : ℚ) / (r.total_expected : ℚ) * 100) ∧
      (config.rules = [] →
        r.total_expected = 0 ∧ (get_validation_stats r).success_rate = 0) := by
  intro data config r h
  have hrate : (get_validation_stats r).success_rate =
      if r.total_expected = 0 then 0
      else (r.total_found : ℚ) / (r.total_expected : ℚ) * 100 := by
    unfold get_validation_stats
    by_cases h0 : r.total_expected = 0
    · simp [h0]
    · simp [h0, Nat.pos_of_ne_zero h0]
  refine ⟨hrate, fun hrules => ?_⟩
  have hr : r.total_expected = 0 := by
    unfold validate_metrics at h
    split at h
    · have h2 := Except.ok.inj h
      rw [← h2]
      simp [runRules, hrules, initResults]
    · have h2 := Except.ok.inj h
      rw [← h2]
      simp [runRules, hrules, initResults]
    · exact absurd h (by simp)
    · exact absurd h (by simp)
  exact ⟨hr, by rw [hrate, if_pos hr]⟩

/-- Witness for C7: validating against an empty catalog yields
`total_expected = 0` and a success rate of 0. -/
theorem claim_C7_success_rate_witness :
    (runRules [(("a.b").data, J.prim Prim.null)]
      (Config.mk ("cfg").data [])).total_expected = 0 ∧
    (get_validation_stats (runRules [(("a.b").data, J.prim Prim.null)]
      (Config.mk ("cfg").data []))).success_rate = 0 :=
  (claim_C7_success_rate (J.obj [(("a.b").data, J.prim Prim.null)])
    (Config.mk ("cfg").data []) _ rfl).2 rfl

/-- Witness for C5 at concrete one-key documents. -/
theorem claim_C5_digit_wildcard_witness :
    ("Device.WiFi.Radio.1.Stats.BytesSent").data ∈
      find_matching_keys
        [(("Device.WiFi.Radio.1.Stats.BytesSent").data, J.prim Prim.null)]
        ("Device.WiFi.Radio.{i}.Stats.BytesSent").data ∧
    ("Device.WiFi.Radio.abc.Stats.BytesSent").data ∉
      find_matching_keys
        [(("Device.WiFi.Radio.abc.Stats.BytesSent").data, J.prim Prim.null)]
        ("Device.WiFi.Radio.{i}.Stats.BytesSent").data :=
  ⟨claim_C5_digit_wildcard.1 _ (by decide), claim_C5_digit_wildcard.2.1 _⟩

theorem keysOf_setA (k : Str) (v : J) :
    ∀ (acc : List (Str × J)) (k' : Str),
      k' ∈ keysOf (setA acc k v) → k' ∈ keysOf acc ∨ k' = k := by
  intro acc
  induction acc with
  | nil =>
    intro k' h
    simp [setA, keysOf] at h
    exact Or.inr h
  | cons kv rest ih =>
    intro k' h
    obtain ⟨k0, v0⟩ := kv
    by_cases heq : k0 = k
    · rw [show setA ((k0, v0) :: rest) k v = (k, v) :: rest from by simp [setA, heq]] at h
      simp only [keysOf, List.map_cons] at h ⊢
      rcases List.mem_cons.mp h with h | h
      · exact Or.inr h
      · exact Or.inl (List.mem_cons_of_mem _ h)
    · rw [show setA ((k0, v0) :: rest) k v = (k0, v0) :: setA rest k v from by
        simp [setA, heq]] at h
      simp only [keysOf, List.map_cons] at h ⊢
      rcases List.mem_cons.mp h with h | h
      · exact Or.inl (List.mem_cons.mpr (Or.inl h))
      · rcases ih k' h with h2 | h2
        · exact Or.inl (List.mem_cons_of_mem _ h2)
        · exact Or.inr h2

theorem pre_prefix_dotJoin (pre k : Str) : pre <+: dotJoin pre k := by
  unfold dotJoin
  by_cases h : pre = []
  · simp [h]
  · simp [h]

theorem pre_prefix_brackJoin (pre : Str) (i : Nat) : pre <+: brackJoin pre i :=
  List.prefix_append pre _

theorem flattenOH_keys_pre :
    ∀ n : Nat,
      (∀ (fields : List (Str × J)) (pre : Str) (acc : List (Str × J)) (k : Str),
        sizeOf fields ≤ n → k ∈ keysOf (flattenOHFields fields pre acc) →
          k ∈ keysOf acc ∨ pre <+: k) ∧
      (∀ (items : List J) (pre : Str) (i : Nat) (acc : List (Str × J)) (k : Str),
        sizeOf items ≤ n → k ∈ keysOf (flattenOHItems items pre i acc) →
          k ∈ keysOf acc ∨ pre <+: k) := by
  intro n
  induction n with
  | zero =>
    constructor
    · intro fields pre acc k hsz
      cases fields <;> simp at hsz
    · intro items pre i acc k hsz
      cases items <;> simp at hsz
  | succ n ihn =>
    obtain ⟨ihF, ihI⟩ := ihn
    constructor
    · intro fields pre acc k hsz hmem
      cases fields with
      | nil =>
        simp only [flattenOHFields] at hmem
        exact Or.inl hmem
      | cons kv rest =>
        obtain ⟨k0, v0⟩ := kv
        cases v0 with
        | obj sub =>
          simp only [flattenOHFields] at hmem
          have hszr : sizeOf rest ≤ n := by simp at hsz; omega
          have hszs : sizeOf sub ≤ n := by simp at hsz; omega
          rcases ihF rest pre _ k hszr hmem with h | h
          · rcases ihF sub (dotJoin pre k0) acc k hszs h with h2 | h2
            · exact Or.inl h2
            · exact Or.inr ((pre_prefix_dotJoin pre k0).trans h2)
          · exact Or.inr h
        | arr xs =>
          simp only [flattenOHFields] at hmem
          have hszr : sizeOf rest ≤ n := by simp at hsz; omega
          have hszs : sizeOf xs ≤ n := by simp at hsz; omega
          rcases ihF rest pre _ k hszr hmem with h | h
          · rcases ihI xs (dotJoin pre k0) 0 acc k hszs h with h2 | h2
            · exact Or.inl h2
            · exact Or.inr ((pre_prefix_dotJoin pre k0).trans h2)
          · exact Or.inr h
        | prim p0 =>
          simp only [flattenOHFields] at hmem
          have hszr : sizeOf rest ≤ n := by simp at hsz; omega
          rcases ihF rest pre _ k hszr hmem with h | h
          · rcases keysOf_setA (dotJoin pre k0) (J.prim p0) acc k h with h2 | h2
            · exact Or.inl h2
            · exact Or.inr (h2 ▸ pre_prefix_dotJoin pre k0)
          · exact Or.inr h
    · intro items pre i acc k hsz hmem
      cases items with
      | nil =>
        simp only [flattenOHItems] at hmem
        exact Or.inl hmem
      | cons item rest =>
        cases item with
        | obj sub =>
          simp only [flattenOHItems] at hmem
          have hszr : sizeOf rest ≤ n := by simp at hsz; omega
          have hszs : sizeOf sub ≤ n := by simp at hsz; omega
          rcases ihI rest pre (i + 1) _ k hszr hmem with h | h
          · rcases ihF sub (brackJoin pre i) acc k hszs h with h2 | h2
            · exact Or.inl h2
            · exact Or.inr ((pre_prefix_brackJoin pre i).trans h2)
          · exact Or.inr h
        | arr xs =>
          simp only [flattenOHItems] at hmem
          have hszr : sizeOf rest ≤ n := by simp at hsz; omega
          have hszs : sizeOf xs ≤ n := by simp at hsz; omega
          rcases ihI rest pre (i + 1) _ k hszr hmem with h | h
          · rcases ihI xs (brackJoin pre i) 0 acc k hszs h with h2 | h2
            · exact Or.inl h2
            · exact Or.inr ((pre_prefix_brackJoin pre i).trans h2)
          · exact Or.inr h
        | prim p0 =>
          simp only [flattenOHItems] at hmem
          have hszr : sizeOf rest ≤ n := by simp at hsz; omega
          rcases ihI rest pre (i + 1) _ k hszr hmem with h | h
          · rcases keysOf_setA (brackJoin pre i) (J.prim p0) acc k h with h2 | h2
            · exact Or.inl h2
            · exact Or.inr (h2 ▸ pre_prefix_brackJoin pre i)
          · exact Or.inr h

theorem flattenOHFields_keys (fields : List (Str × J)) (pre : Str)
    (acc : List (Str × J)) (k : Str) :
    k ∈ keysOf (flattenOHFields fields pre acc) → k ∈ keysOf acc ∨ pre <+: k :=
  (flattenOH_keys_pre (sizeOf fields)).1 fields pre acc k (le_refl _)

theorem flattenOHItems_keys (items : List J) (pre : Str) (i : Nat)
    (acc : List (Str × J)) (k : Str) :
    k ∈ keysOf (flattenOHItems items pre i acc) → k ∈ keysOf acc ∨ pre <+: k :=
  (flattenOH_keys_pre (sizeOf items)).2 items pre i acc k (le_refl _)

theorem flattenOHItems_bracket :
    ∀ (items : List J) (pre : Str) (i : Nat) (acc : List (Str × J)) (k : Str),
      k ∈ keysOf (flattenOHItems items pre i acc) →
      k ∈ keysOf acc ∨ ∃ j, j < items.length ∧ brackJoin pre (i + j) <+: k := by
  intro items
  induction items with
  | nil =>
    intro pre i acc k h
    simp only [flattenOHItems] at h
    exact Or.inl h
  | cons item rest ih =>
    intro pre i acc k h
    have shift : ∀ j, j < rest.length → brackJoin pre (i + 1 + j) <+: k →
        ∃ j', j' < (item :: rest).length ∧ brackJoin pre (i + j') <+: k := by
      intro j hj hpre
      refine ⟨j + 1, by simp; omega, ?_⟩
      rw [show i + (j + 1) = i + 1 + j from by omega]
      exact hpre
    cases item with
    | obj sub =>
      simp only [flattenOHItems] at h
      rcases ih pre (i + 1) _ k h with h1 | ⟨j, hj, hpre⟩
      · rcases flattenOHFields_keys sub (brackJoin pre i) acc k h1 with h2 | h2
        · exact Or.inl h2
        · exact Or.inr ⟨0, by simp, by simpa using h2⟩
      · exact Or.inr (shift j hj hpre)
    | arr xs =>
      simp only [flattenOHItems] at h
      rcases ih pre (i + 1) _ k h with h1 | ⟨j, hj, hpre⟩
      · rcases flattenOHItems_keys xs (brackJoin pre i) 0 acc k h1 with h2 | h2
        · exact Or.inl h2
        · exact Or.inr ⟨0, by simp, by simpa using h2⟩
      · exact Or.inr (shift j hj hpre)
    | prim p0 =>
      simp only [flattenOHItems] at h
      rcases ih pre (i + 1) _ k h with h1 | ⟨j, hj, hpre⟩
      · rcases keysOf_setA (brackJoin pre i) (J.prim p0) acc k h1 with h2 | h2
        · exact Or.inl h2
        · exact Or.inr ⟨0, by simp, by rw [h2, Nat.add_zero]⟩
      · exact Or.inr (shift j hj hpre)

theorem digitChar_isDigit (n : Nat) (h : n < 10) : (Nat.digitChar n).isDigit = true := by
  interval_cases n <;> decide

theorem natDigitsAux_digits (fuel : Nat) :
    ∀ n c, c ∈ natDigitsAux fuel n → c.isDigit = true := by
  induction fuel with
  | zero =>
    intro n c h
    simp [natDigitsAux] at h
  | succ fuel ih =>
    intro n c h
    by_cases h10 : n < 10
    · simp [natDigitsAux, h10] at h
      rw [h]
      exact digitChar_isDigit n h10
    · simp [natDigitsAux, h10] at h
      rcases h with h | h
      · exact ih _ c h
      · rw [h]
        exact digitChar_isDigit _ (Nat.mod_lt n (by omega))

theorem brackSuffix_no_dot (i : Nat) :
    '.' ∉ ('[' :: (natDigits i ++ [']']) : Str) := by
  intro h
  rcases List.mem_cons.mp h with h | h
  · exact absurd h (by decide)
  · rcases List.mem_append.mp h with h | h
    · exact absurd (natDigitsAux_digits (i + 1) i '.' h) (by decide)
    · rcases List.mem_cons.mp h with h | h
      · exact absurd h (by decide)
      · simp at h

/-- C10: the hierarchy flattening used by validation and extraction
descends into list values instead of treating them as leaves: a scalar
element at index `i` under prefix `P` is emitted at the bracketed key
`P[i]`, a mapping element is descended under the bracketed prefix `P[i]`,
every key produced from a list extends one of the bracketed prefixes
`P[i]`, and the bracket suffix `[i]` contains no dot — so list elements
never appear as dot-separated segments. -/
theorem claim_C10_list_flatten_brackets :
    (∀ (p : Prim) (rest : List J) (pre : Str) (i : Nat) (acc : List (Str × J)),
      flattenOHItems (J.prim p :: rest) pre i acc =
        flattenOHItems rest pre (i + 1) (setA acc (brackJoin pre i) (J.prim p))) ∧
    (∀ (sub : List (Str × J)) (rest : List J) (pre : Str) (i : Nat)
        (acc : List (Str × J)),
      flattenOHItems (J.obj sub :: rest) pre i acc =
        flattenOHItems rest pre (i + 1) (flattenOHFields sub (brackJoin pre i) acc)) ∧
    (∀ (pre : Str) (i : Nat),
      brackJoin pre i = pre ++ '[' :: (natDigits i ++ [']']) ∧
      '.' ∉ ('[' :: (natDigits i ++ [']']) : Str)) ∧
    (∀ (items : List J) (pre : Str) (i : Nat) (acc : List (Str × J)) (k : Str),
      k ∈ keysOf (flattenOHItems items pre i acc) →
      k ∈ keysOf acc ∨ ∃ j, j < items.length ∧ brackJoin pre (i + j) <+: k) ∧
    flatten_object_hierarchy
        (J.obj [(("A").data, J.arr [J.obj [(("B").data, J.prim (Prim.int 1))],
          J.prim (Prim.int 2)])]) =
      [(("A[0].B").data, J.prim (Prim.int 1)), (("A[1]").data, J.prim (Prim.int 2))] := by
  refine ⟨fun p rest pre i acc => by simp [flattenOHItems],
    fun sub rest pre i acc => by simp [flattenOHItems],
    fun pre i => ⟨rfl, brackSuffix_no_dot i⟩,
    flattenOHItems_bracket, ?_⟩
  simp [flatten_object_hierarchy, flattenOHFields, flattenOHItems, brackJoin,
    dotJoin, natDigits, natDigitsAux, setA]
  decide

/-- Witness for C10: a scalar list element at index 1 under prefix `A`
appears under a key extending the bracketed prefix `A[1]`. -/
theorem claim_C10_list_flatten_brackets_witness :
    ("A[1]").data ∈ keysOf ([] : List (Str × J)) ∨
    ∃ j, j < 1 ∧ brackJoin ("A").data (1 + j) <+: ("A[1]").data :=
  claim_C10_list_flatten_brackets.2.2.2.1 [J.prim (Prim.int 2)] ("A").data 1 []
    (("A[1]").data)
    (by simp [flattenOHItems, setA, keysOf, brackJoin, natDigits, natDigitsAux]; decide)

/-! ### JSON converter (`tools/json_converter.py`)

`_build_hierarchy` walks the dot-separated path through nested dicts,
creating empty sub-dicts for absent intermediate segments.  In Python,
descending into — or finally assigning into — a value that is not a dict
raises a `TypeError` (`'str' object does not support item assignment`,
`argument of type 'int' is not iterable`, …) which propagates out of
`to_object_hierarchy`; the embedding reports this as the
`StructureConflict` error value.  The final segment is assigned with dict
update semantics, silently replacing whatever was there. -/

/-- Recursive embedding of `JSONConverter._build_hierarchy`. -/
def buildH : J → List Str → J → Except String J
  | _, [], _ => Except.error "empty path"
  | J.obj fields, [last], v => Except.ok (J.obj (setA fields last v))
  | J.obj fields, part :: r :: rs, v =>
      match buildH ((lookupA fields part).getD (J.obj [])) (r :: rs) v with
      | Except.ok child => Except.ok (J.obj (setA fields part child))
      | Except.error e => Except.error e
  | J.prim _, _ :: _, _ => Except.error "StructureConflict"
  | J.arr _, _ :: _, _ => Except.error "StructureConflict"

/-- Embedding of `JSONConverter.to_object_hierarchy` on dict input: insert
the entries in order (an empty name is skipped, `if not path: return`); a
conflict aborts the whole conversion with no result, as the Python
exception propagates. -/
def to_object_hierarchy (m : List (Str × J)) : Except String J :=
  m.foldlM
    (fun acc kv =>
      if kv.1 = [] then Except.ok acc else buildH acc (splitDots kv.1) kv.2)
    (J.obj [])

/-- Embedding of `JSONConverter._flatten_hierarchy_to_dict`: only dict
values are descended; everything else (scalars and lists) is emitted as a
leaf at the dot-joined path. -/
def flattenFields : List (Str × J) → Str → List (Str × J) → List (Str × J)
  | [], _, acc => acc
  | (k, J.obj sub) :: rest, pre, acc =>
      flattenFields rest pre (flattenFields sub (dotJoin pre k) acc)
  | (k, J.prim p) :: rest, pre, acc =>
      flattenFields rest pre (setA acc (dotJoin pre k) (J.prim p))
  | (k, J.arr xs) :: rest, pre, acc =>
      flattenFields rest pre (setA acc (dotJoin pre k) (J.arr xs))

/-- Embedding of `JSONConverter.to_name_value_pair`: iterates `.items()`,
so the input must be a mapping. -/
def to_name_value_pair : J → Except String (List (Str × J))
  | J.obj fields => Except.ok (flattenFields fields [] [])
  | _ => Except.error "not a mapping"

/-- Descend a tree along a list of path segments. -/
def treeGet : J → List Str → Option J
  | t, [] => some t
  | J.obj fields, seg :: rest =>
      match lookupA fields seg with
      | some t => treeGet t rest
      | none => none
  | J.prim _, _ :: _ => none
  | J.arr _, _ :: _ => none

/-- The leaf paths of the object spine of a field list: (segment path,
value) pairs reached by descending only through objects, in field order —
the paths at which `flattenFields` emits entries. -/
def segLeavesF : List (Str × J) → List (List Str × J)
  | [] => []
  | (k, J.obj sub) :: rest =>
      (segLeavesF sub).map (fun pv => (k :: pv.1, pv.2)) ++ segLeavesF rest
  | (k, J.prim p) :: rest => ([k], J.prim p) :: segLeavesF rest
  | (k, J.arr xs) :: rest => ([k], J.arr xs) :: segLeavesF rest

/-- Cleanliness of the object spine of a tree: every object's keys are
pairwise distinct, non-empty and dot-free. -/
inductive CleanT : J → Prop where
  | prim (p : Prim) : CleanT (J.prim p)
  | arr (xs : List J) : CleanT (J.arr xs)
  | obj (fields : List (Str × J))
      (hnd : (fields.map Prod.fst).Nodup)
      (hkeys : ∀ kv ∈ fields, kv.1 ≠ [] ∧ '.' ∉ kv.1)
      (hsub : ∀ kv ∈ fields, CleanT kv.2) :
      CleanT (J.obj fields)

theorem lookupA_setA_self (l : List (Str × J)) (k : Str) (v : J) :
    lookupA (setA l k v) k = some v := by
  induction l with
  | nil => simp [setA, lookupA]
  | cons kv rest ih =>
    obtain ⟨k0, v0⟩ := kv
    by_cases h : k0 = k
    · simp [setA, h, lookupA]
    · simp [setA, h, lookupA, ih]

theorem lookupA_setA_ne (l : List (Str × J)) (k k' : Str) (v : J) (h : k' ≠ k) :
    lookupA (setA l k v) k' = lookupA l k' := by
  induction l with
  | nil => simp [setA, lookupA, Ne.symm h]
  | cons kv rest ih =>
    obtain ⟨k0, v0⟩ := kv
    by_cases h0 : k0 = k
    · subst h0
      simp [setA, lookupA, Ne.symm h]
    · simp only [setA, if_neg h0, lookupA]
      by_cases h1 : k0 = k'
      · simp [h1]
      · simp [h1, ih]

theorem lookupA_none_iff (l : List (Str × J)) (k : Str) :
    lookupA l k = none ↔ k ∉ keysOf l := by
  induction l with
  | nil => simp [lookupA, keysOf]
  | cons kv rest ih =>
    obtain ⟨k0, v0⟩ := kv
    by_cases h : k0 = k
    · subst h
      rw [show lookupA ((k0, v0) :: rest) k0 = some v0 from by rw [lookupA, if_pos rfl]]
      constructor
      · intro hcontr
        exact absurd hcontr (by simp)
      · intro hcontr
        exact absurd (List.mem_map.mpr ⟨(k0, v0), List.mem_cons_self _ _, rfl⟩) hcontr
    · rw [show lookupA ((k0, v0) :: rest) k = lookupA rest k from by
        rw [lookupA, if_neg h]]
      rw [ih]
      simp only [keysOf, List.map_cons, List.mem_cons]
      constructor
      · intro hn hmem
        rcases hmem with hmem | hmem
        · exact h hmem.symm
        · exact hn hmem
      · intro hn hmem
        exact hn (Or.inr hmem)

theorem lookupA_isSome_of_mem (l : List (Str × J)) (k : Str) (v : J)
    (h : (k, v) ∈ l) : lookupA l k ≠ none := by
  intro hn
  rw [lookupA_none_iff] at hn
  exact hn (List.mem_map.mpr ⟨(k, v), h, rfl⟩)

theorem lookupA_some_iff_mem (l : List (Str × J)) (hnd : (keysOf l).Nodup)
    (k : Str) (v : J) : lookupA l k = some v ↔ (k, v) ∈ l := by
  induction l with
  | nil => simp [lookupA]
  | cons kv rest ih =>
    obtain ⟨k0, v0⟩ := kv
    simp only [keysOf, List.map_cons, List.nodup_cons] at hnd
    by_cases h : k0 = k
    · subst h
      rw [show lookupA ((k0, v0) :: rest) k0 = some v0 from by rw [lookupA, if_pos rfl]]
      simp only [List.mem_cons]
      constructor
      · intro hv
        exact Or.inl (by rw [Option.some.inj hv])
      · intro hv
        rcases hv with hv | hv
        · rw [((Prod.mk.injEq _ _ _ _).mp hv).2]
        · exact absurd (List.mem_map.mpr ⟨(k0, v), hv, rfl⟩) hnd.1
    · rw [show lookupA ((k0, v0) :: rest) k = lookupA rest k from by
        rw [lookupA, if_neg h]]
      rw [ih hnd.2]
      simp only [List.mem_cons]
      constructor
      · exact Or.inr
      · intro hv
        rcases hv with hv | hv
        · exact absurd ((Prod.mk.injEq _ _ _ _).mp hv).1.symm h
        · exact hv

theorem keysOf_setA_nodup (l : List (Str × J)) (k : Str) (v : J)
    (h : (keysOf l).Nodup) : (keysOf (setA l k v)).Nodup := by
  induction l with
  | nil => simp [setA, keysOf]
  | cons kv rest ih =>
    obtain ⟨k0, v0⟩ := kv
    simp only [keysOf, List.map_cons, List.nodup_cons] at h
    by_cases h0 : k0 = k
    · subst h0
      rw [show setA ((k0, v0) :: rest) k0 v = (k0, v) :: rest from by simp [setA]]
      simp only [keysOf, List.map_cons, List.nodup_cons]
      exact h
    · rw [show setA ((k0, v0) :: rest) k v = (k0, v0) :: setA rest k v from by
        simp [setA, h0]]
      simp only [keysOf, List.map_cons, List.nodup_cons]
      refine ⟨fun hmem => ?_, ih h.2⟩
      rcases keysOf_setA k v rest k0 hmem with h2 | h2
      · exact h.1 h2
      · exact h0 h2

theorem treeGet_nonobj (v : J) (hv : ∀ g, v ≠ J.obj g) :
    ∀ ext : List Str, ext ≠ [] → treeGet v ext = none := by
  intro ext hext
  cases v with
  | obj g => exact absurd rfl (hv g)
  | prim p => cases ext with
    | nil => exact absurd rfl hext
    | cons a b => rfl
  | arr xs => cases ext with
    | nil => exact absurd rfl hext
    | cons a b => rfl

theorem treeGet_obj_cons (fields : List (Str × J)) (seg : Str) (rest : List Str) :
    treeGet (J.obj fields) (seg :: rest) =
      (match lookupA fields seg with
       | some t => treeGet t rest
       | none => none) := rfl

theorem treeGet_cons_some (fields : List (Str × J)) (seg : Str)
    (rest : List Str) (t : J) (h : lookupA fields seg = some t) :
    treeGet (J.obj fields) (seg :: rest) = treeGet t rest := by
  simp [treeGet, h]

theorem treeGet_cons_none (fields : List (Str × J)) (seg : Str)
    (rest : List Str) (h : lookupA fields seg = none) :
    treeGet (J.obj fields) (seg :: rest) = none := by
  simp [treeGet, h]

theorem treeGet_empty_obj (q : List Str) (hq : q ≠ []) :
    treeGet (J.obj []) q = none := by
  cases q with
  | nil => exact absurd rfl hq
  | cons a b => rfl

theorem mem_setA (l : List (Str × J)) (k : Str) (v : J) :
    ∀ kv ∈ setA l k v, kv ∈ l ∨ kv = (k, v) := by
  induction l with
  | nil =>
    intro kv h
    simp [setA] at h
    exact Or.inr h
  | cons kv0 rest ih =>
    obtain ⟨k0, v0⟩ := kv0
    intro kv h
    by_cases h0 : k0 = k
    · rw [show setA ((k0, v0) :: rest) k v = (k, v) :: rest from by simp [setA, h0]] at h
      rcases List.mem_cons.mp h with h | h
      · exact Or.inr h
      · exact Or.inl (List.mem_cons_of_mem _ h)
    · rw [show setA ((k0, v0) :: rest) k v = (k0, v0) :: setA rest k v from by
        simp [setA, h0]] at h
      rcases List.mem_cons.mp h with h | h
      · exact Or.inl (List.mem_cons.mpr (Or.inl h))
      · rcases ih kv h with h2 | h2
        · exact Or.inl (List.mem_cons_of_mem _ h2)
        · exact Or.inr h2

theorem lookupA_mem (l : List (Str × J)) (k : Str) (c : J)
    (h : lookupA l k = some c) : (k, c) ∈ l := by
  induction l with
  | nil => simp [lookupA] at h
  | cons kv rest ih =>
    obtain ⟨k0, v0⟩ := kv
    by_cases h0 : k0 = k
    · subst h0
      rw [show lookupA ((k0, v0) :: rest) k0 = some v0 from by rw [lookupA, if_pos rfl]] at h
      rw [show c = v0 from (Option.some.inj h).symm]
      exact List.mem_cons_self _ _
    · rw [show lookupA ((k0, v0) :: rest) k = lookupA rest k from by
        rw [lookupA, if_neg h0]] at h
      exact List.mem_cons_of_mem _ (ih h)

theorem buildH_obj_shape (fields : List (Str × J)) (p : List Str) (v t' : J)
    (h : buildH (J.obj fields) p v = Except.ok t') : ∃ f', t' = J.obj f' := by
  cases p with
  | nil => simp [buildH] at h
  | cons a rest =>
    cases rest with
    | nil =>
      simp only [buildH] at h
      exact ⟨setA fields a v, (Except.ok.inj h).symm⟩
    | cons r rs =>
      simp only [buildH] at h
      cases hb : buildH ((lookupA fields a).getD (J.obj [])) (r :: rs) v with
      | ok child =>
        rw [hb] at h
        exact ⟨setA fields a child, (Except.ok.inj h).symm⟩
      | error e => rw [hb] at h; simp at h

theorem buildH_ok (v : J) :
    ∀ (p : List Str) (fields : List (Str × J)),
      p ≠ [] →
      (∀ q : List Str, q ≠ [] → q <+: p → q ≠ p →
        treeGet (J.obj fields) q = none ∨
          ∃ g, treeGet (J.obj fields) q = some (J.obj g)) →
      ∃ f', buildH (J.obj fields) p v = Except.ok (J.obj f') := by
  intro p
  induction p with
  | nil => intro fields hne _; exact absurd rfl hne
  | cons a rest ih =>
    intro fields _ hq
    cases rest with
    | nil => exact ⟨setA fields a v, rfl⟩
    | cons r rs =>
      have hchild : ∃ cf, (lookupA fields a).getD (J.obj []) = J.obj cf := by
        cases hl : lookupA fields a with
        | none => exact ⟨[], by simp⟩
        | some c =>
          have hget := hq [a] (by simp) ⟨r :: rs, rfl⟩ (by simp)
          rw [treeGet_cons_some fields a [] c hl] at hget
          simp only [treeGet] at hget
          rcases hget with hget | ⟨g, hget⟩
          · exact absurd hget (by simp)
          · refine ⟨g, ?_⟩
            rw [show c = J.obj g from Option.some.inj hget]
            rfl
      obtain ⟨cf, hcf⟩ := hchild
      have hsub : ∀ q : List Str, q ≠ [] → q <+: (r :: rs) → q ≠ r :: rs →
          treeGet (J.obj cf) q = none ∨
            ∃ g, treeGet (J.obj cf) q = some (J.obj g) := by
        intro q hqne hqpre hqneq
        obtain ⟨t, ht⟩ := hqpre
        have hmain := hq (a :: q) (by simp)
          ⟨t, by rw [List.cons_append, ht]⟩
          (by
            intro hcontr
            exact hqneq (List.cons.inj hcontr).2)
        cases hl : lookupA fields a with
        | none =>
          have hcfnil : J.obj ([] : List (Str × J)) = J.obj cf := by
            rw [hl] at hcf
            exact hcf
          rw [← J.obj.inj hcfnil]
          exact Or.inl (treeGet_empty_obj q hqne)
        | some c =>
          rw [treeGet_cons_some fields a q c hl] at hmain
          have hc : c = J.obj cf := by
            rw [hl] at hcf
            exact hcf
          rw [← hc]
          exact hmain
      obtain ⟨f', hf'⟩ := ih cf (by simp) hsub
      refine ⟨setA fields a (J.obj f'), ?_⟩
      simp only [buildH]
      rw [hcf, hf']

theorem buildH_fail (v : J) :
    ∀ (p : List Str) (fields : List (Str × J)),
      (∃ q s, q <+: p ∧ q ≠ [] ∧ q ≠ p ∧
        treeGet (J.obj fields) q = some (J.prim s)) →
      ∃ e, buildH (J.obj fields) p v = Except.error e := by
  intro p
  induction p with
  | nil =>
    intro fields h
    obtain ⟨q, s, hpre, hne, _, _⟩ := h
    obtain ⟨t, ht⟩ := hpre
    cases q with
    | nil => exact absurd rfl hne
    | cons a b => simp at ht
  | cons a rest ih =>
    intro fields h
    obtain ⟨q, s, hpre, hne, hneq, hget⟩ := h
    cases q with
    | nil => exact absurd rfl hne
    | cons qa qrest =>
      obtain ⟨t, ht⟩ := hpre
      rw [List.cons_append] at ht
      have hqa : qa = a := (List.cons.inj ht).1
      have hrest : qrest ++ t = rest := (List.cons.inj ht).2
      subst hqa
      cases hl : lookupA fields qa with
      | none =>
        rw [treeGet_cons_none fields qa qrest hl] at hget
        simp at hget
      | some c =>
        rw [treeGet_cons_some fields qa qrest c hl] at hget
        cases rest with
        | nil =>
          have hqrest : qrest = [] := by
            cases qrest with
            | nil => rfl
            | cons x y => simp at hrest
          subst hqrest
          exact absurd rfl hneq
        | cons r rs =>
          cases qrest with
          | nil =>
            simp only [treeGet] at hget
            have hc : c = J.prim s := Option.some.inj hget
            refine ⟨"StructureConflict", ?_⟩
            simp only [buildH]
            rw [hl]
            simp only [Option.getD, hc]
            rfl
          | cons qb qrest2 =>
            cases c with
            | prim cp =>
              rw [show treeGet (J.prim cp) (qb :: qrest2) = none from rfl] at hget
              simp at hget
            | arr xs =>
              rw [show treeGet (J.arr xs) (qb :: qrest2) = none from rfl] at hget
              simp at hget
            | obj cf =>
              have hsub := ih cf ⟨qb :: qrest2, s,
                ⟨t, hrest⟩, by simp,
                (by
                  intro hcontr
                  exact hneq (by rw [hcontr])), hget⟩
              obtain ⟨e, he⟩ := hsub
              refine ⟨e, ?_⟩
              simp only [buildH]
              rw [hl]
              simp only [Option.getD]
              rw [he]

theorem buildH_get (v : J) :
    ∀ (p : List Str) (fields f' : List (Str × J)),
      buildH (J.obj fields) p v = Except.ok (J.obj f') →
      treeGet (J.obj f') p = some v ∧
      (∀ q, ¬ q <+: p → ¬ p <+: q →
        treeGet (J.obj f') q = treeGet (J.obj fields) q) ∧
      (∀ q, q <+: p → q ≠ p → ∃ g, treeGet (J.obj f') q = some (J.obj g)) ∧
      (∀ ext, ext ≠ [] → treeGet (J.obj f') (p ++ ext) = treeGet v ext) := by
  intro p
  induction p with
  | nil => intro fields f' h; simp [buildH] at h
  | cons a rest ih =>
    intro fields f' h
    cases rest with
    | nil =>
      simp only [buildH] at h
      have hf : f' = setA fields a v := (J.obj.inj (Except.ok.inj h)).symm
      subst hf
      refine ⟨?_, ?_, ?_, ?_⟩
      · rw [treeGet_cons_some _ a [] v (lookupA_setA_self fields a v)]
        simp [treeGet]
      · intro q hq1 hq2
        cases q with
        | nil => exact absurd List.nil_prefix hq1
        | cons b qr =>
          by_cases hba : b = a
          · subst hba
            cases qr with
            | nil => exact absurd (List.prefix_refl _) hq1
            | cons x y => exact absurd ⟨x :: y, rfl⟩ hq2
          · cases hl : lookupA fields b with
            | none =>
              rw [treeGet_cons_none _ b qr
                  (by rw [lookupA_setA_ne _ _ _ _ hba]; exact hl),
                treeGet_cons_none _ b qr hl]
            | some c =>
              rw [treeGet_cons_some _ b qr c
                  (by rw [lookupA_setA_ne _ _ _ _ hba]; exact hl),
                treeGet_cons_some _ b qr c hl]
      · intro q hq1 hq2
        obtain ⟨t, ht⟩ := hq1
        cases q with
        | nil => exact ⟨setA fields a v, rfl⟩
        | cons x y =>
          rw [List.cons_append] at ht
          have hx : x = a := (List.cons.inj ht).1
          have hyt : y ++ t = [] := (List.cons.inj ht).2
          have hy : y = [] := by
            cases y with
            | nil => rfl
            | cons z w => simp at hyt
          subst hx
          subst hy
          exact absurd rfl hq2
      · intro ext hext
        rw [show ([a] ++ ext : List Str) = a :: ext from rfl,
          treeGet_cons_some _ a ext v (lookupA_setA_self fields a v)]
    | cons r rs =>
      simp only [buildH] at h
      cases hb : buildH ((lookupA fields a).getD (J.obj [])) (r :: rs) v with
      | error e => rw [hb] at h; simp at h
      | ok child' =>
        rw [hb] at h
        have hf : f' = setA fields a child' := (J.obj.inj (Except.ok.inj h)).symm
        have hchild_obj : ∃ cf, (lookupA fields a).getD (J.obj []) = J.obj cf := by
          cases hcc : (lookupA fields a).getD (J.obj []) with
          | obj cf => exact ⟨cf, rfl⟩
          | prim pp => rw [hcc] at hb; simp [buildH] at hb
          | arr xs => rw [hcc] at hb; simp [buildH] at hb
        obtain ⟨cf, hcf⟩ := hchild_obj
        rw [hcf] at hb
        obtain ⟨cf', hcf'⟩ := buildH_obj_shape cf (r :: rs) v child' hb
        subst hcf'
        subst hf
        obtain ⟨ih1, ih2, ih3, ih4⟩ := ih cf cf' hb
        refine ⟨?_, ?_, ?_, ?_⟩
        · rw [treeGet_cons_some _ a (r :: rs) _ (lookupA_setA_self fields a _)]
          exact ih1
        · intro q hq1 hq2
          cases q with
          | nil => exact absurd List.nil_prefix hq1
          | cons b qr =>
            by_cases hba : b = a
            · subst hba
              have hqr1 : ¬ qr <+: (r :: rs) := by
                rintro ⟨t, ht⟩
                exact hq1 ⟨t, by rw [List.cons_append, ht]⟩
              have hqr2 : ¬ (r :: rs) <+: qr := by
                rintro ⟨t, ht⟩
                exact hq2 ⟨t, by rw [List.cons_append, ht]⟩
              rw [treeGet_cons_some _ b qr _ (lookupA_setA_self fields b _)]
              rw [ih2 qr hqr1 hqr2]
              cases hl : lookupA fields b with
              | none =>
                have hnil : J.obj ([] : List (Str × J)) = J.obj cf := by
                  rw [hl] at hcf
                  exact hcf
                rw [treeGet_cons_none _ b qr hl, ← J.obj.inj hnil]
                have hqrne : qr ≠ [] := by
                  intro hqrnil
                  subst hqrnil
                  exact hq1 ⟨r :: rs, rfl⟩
                exact treeGet_empty_obj qr hqrne
              | some c =>
                have hc : c = J.obj cf := by
                  rw [hl] at hcf
                  exact hcf
                rw [treeGet_cons_some _ b qr c hl, hc]
            · cases hl : lookupA fields b with
              | none =>
                rw [treeGet_cons_none _ b qr
                    (by rw [lookupA_setA_ne _ _ _ _ hba]; exact hl),
                  treeGet_cons_none _ b qr hl]
              | some c =>
                rw [treeGet_cons_some _ b qr c
                    (by rw [lookupA_setA_ne _ _ _ _ hba]; exact hl),
                  treeGet_cons_some _ b qr c hl]
        · intro q hq1 hq2
          cases q with
          | nil => exact ⟨_, rfl⟩
          | cons b qr =>
            obtain ⟨t, ht⟩ := hq1
            rw [List.cons_append] at ht
            have hba : b = a := (List.cons.inj ht).1
            have hqr : qr ++ t = r :: rs := (List.cons.inj ht).2
            subst hba
            have hqrne : qr ≠ r :: rs := by
              intro hcontr
              exact hq2 (by rw [hcontr])
            rw [treeGet_cons_some _ b qr _ (lookupA_setA_self fields b _)]
            exact ih3 qr ⟨t, hqr⟩ hqrne
        · intro ext hext
          rw [show ((a :: r :: rs) ++ ext : List Str) = a :: ((r :: rs) ++ ext) from rfl]
          rw [treeGet_cons_some _ a _ _ (lookupA_setA_self fields a _)]
          exact ih4 ext hext

theorem setA_clean (fields : List (Str × J)) (k : Str) (v : J)
    (hc : CleanT (J.obj fields)) (hk : k ≠ [] ∧ '.' ∉ k) (hv : CleanT v) :
    CleanT (J.obj (setA fields k v)) := by
  cases hc with
  | obj _ hnd hkeys hsub =>
    refine CleanT.obj _ (keysOf_setA_nodup fields k v hnd) ?_ ?_
    · intro kv hkv
      rcases mem_setA fields k v kv hkv with h | h
      · exact hkeys kv h
      · rw [h]
        exact hk
    · intro kv hkv
      rcases mem_setA fields k v kv hkv with h | h
      · exact hsub kv h
      · rw [h]
        exact hv

theorem buildH_clean (v : J) (hv : CleanT v) :
    ∀ (p : List Str) (fields : List (Str × J)) (t' : J),
      CleanT (J.obj fields) →
      (∀ s ∈ p, s ≠ [] ∧ '.' ∉ s) →
      buildH (J.obj fields) p v = Except.ok t' → CleanT t' := by
  intro p
  induction p with
  | nil => intro fields t' _ _ h; simp [buildH] at h
  | cons a rest ih =>
    intro fields t' hc hp h
    cases rest with
    | nil =>
      simp only [buildH] at h
      rw [← Except.ok.inj h]
      exact setA_clean fields a v hc (hp a (List.mem_cons_self _ _)) hv
    | cons r rs =>
      simp only [buildH] at h
      cases hb : buildH ((lookupA fields a).getD (J.obj [])) (r :: rs) v with
      | error e => rw [hb] at h; simp at h
      | ok child' =>
        rw [hb] at h
        have hchildC : CleanT ((lookupA fields a).getD (J.obj [])) := by
          cases hl : lookupA fields a with
          | none => exact CleanT.obj [] (by simp) (by simp) (by simp)
          | some c =>
            cases hc with
            | obj _ hnd hkeys hsub => exact hsub (a, c) (lookupA_mem fields a c hl)
        have hchild_obj : ∃ cf, (lookupA fields a).getD (J.obj []) = J.obj cf := by
          cases hcc : (lookupA fields a).getD (J.obj []) with
          | obj cf => exact ⟨cf, rfl⟩
          | prim pp => rw [hcc] at hb; simp [buildH] at hb
          | arr xs => rw [hcc] at hb; simp [buildH] at hb
        obtain ⟨cf, hcf⟩ := hchild_obj
        rw [hcf] at hb hchildC
        have hchildC' : CleanT child' :=
          ih cf child' hchildC (fun s hs => hp s (List.mem_cons_of_mem _ hs)) hb
        rw [← Except.ok.inj h]
        exact setA_clean fields a child' hc (hp a (List.mem_cons_self _ _)) hchildC'

/-- Folding `dotJoin` from a prefix, the path at which `flattenFields`
emits a leaf reached through the given segments. -/
def joinSegs (pre : Str) (segs : List Str) : Str := segs.foldl dotJoin pre

theorem joinSegs_cons (pre s : Str) (rest : List Str) :
    joinSegs pre (s :: rest) = joinSegs (dotJoin pre s) rest := rfl

theorem joinDots_head_append (s x : Str) (rest : List Str) :
    joinDots ((s ++ '.' :: x) :: rest) = s ++ '.' :: joinDots (x :: rest) := by
  cases rest with
  | nil => rfl
  | cons y r2 =>
    show (s ++ '.' :: x) ++ '.' :: joinDots (y :: r2) =
      s ++ '.' :: (x ++ '.' :: joinDots (y :: r2))
    simp [List.append_assoc]

theorem joinSegs_eq_joinDots :
    ∀ (segs : List Str) (s : Str), s ≠ [] → joinSegs s segs = joinDots (s :: segs) := by
  intro segs
  induction segs with
  | nil => intro s _; rfl
  | cons x rest ih =>
    intro s hs
    rw [joinSegs_cons]
    have hd : dotJoin s x = s ++ '.' :: x := by simp [dotJoin, hs]
    rw [hd, ih (s ++ '.' :: x) (by simp)]
    exact joinDots_head_append s x rest

theorem joinDots_cons_head (c : Char) (seg : Str) (segs : List Str) :
    joinDots ((c :: seg) :: segs) = c :: joinDots (seg :: segs) := by
  cases segs with
  | nil => rfl
  | cons y r2 => rfl

theorem joinDots_splitDots (s : Str) : joinDots (splitDots s) = s := by
  induction s with
  | nil => rfl
  | cons c rest ih =>
    by_cases hc : c = '.'
    · subst hc
      rw [show splitDots ('.' :: rest) = [] :: splitDots rest from by simp [splitDots]]
      cases h : splitDots rest with
      | nil => exact absurd h (splitDots_ne_nil rest)
      | cons x xs =>
        show joinDots ([] :: x :: xs) = '.' :: rest
        rw [show joinDots ([] :: x :: xs) = [] ++ '.' :: joinDots (x :: xs) from rfl]
        rw [List.nil_append, ← h, ih]
    · rw [splitDots_cons_ne c rest hc]
      cases h : splitDots rest with
      | nil => exact absurd h (splitDots_ne_nil rest)
      | cons x xs =>
        rw [joinDots_cons_head c x xs, ← h, ih]

theorem setA_append (l : List (Str × J)) (k : Str) (v : J)
    (h : k ∉ keysOf l) : setA l k v = l ++ [(k, v)] := by
  induction l with
  | nil => rfl
  | cons kv rest ih =>
    obtain ⟨k0, v0⟩ := kv
    simp only [keysOf, List.map_cons, List.mem_cons] at h
    have h0 : k0 ≠ k := fun hc => h (Or.inl hc.symm)
    rw [show setA ((k0, v0) :: rest) k v = (k0, v0) :: setA rest k v from by
      simp [setA, h0]]
    rw [ih (fun hc => h (Or.inr hc))]
    rfl

theorem keysOf_append (a b : List (Str × J)) :
    keysOf (a ++ b) = keysOf a ++ keysOf b := List.map_append _ a b

theorem cleanT_obj_tail (kv : Str × J) (rest : List (Str × J))
    (h : CleanT (J.obj (kv :: rest))) : CleanT (J.obj rest) := by
  cases h with
  | obj _ hnd hkeys hsub =>
    simp only [List.map_cons, List.nodup_cons] at hnd
    exact CleanT.obj rest hnd.2 (fun x hx => hkeys x (List.mem_cons_of_mem _ hx))
      (fun x hx => hsub x (List.mem_cons_of_mem _ hx))

theorem treeGet_cons_congr (f1 f2 : List (Str × J)) (h : Str) (t : List Str)
    (he : lookupA f1 h = lookupA f2 h) :
    treeGet (J.obj f1) (h :: t) = treeGet (J.obj f2) (h :: t) := by
  cases hl : lookupA f2 h with
  | none => rw [treeGet_cons_none f1 h t (he.trans hl), treeGet_cons_none f2 h t hl]
  | some c => rw [treeGet_cons_some f1 h t c (he.trans hl), treeGet_cons_some f2 h t c hl]

theorem segLeavesF_main :
    ∀ n : Nat, ∀ fields : List (Str × J), sizeOf fields ≤ n →
      CleanT (J.obj fields) →
      (∀ pv ∈ segLeavesF fields,
        (∃ h t, pv.1 = h :: t ∧ h ∈ keysOf fields) ∧
        (∀ s ∈ pv.1, s ≠ [] ∧ '.' ∉ s) ∧
        (∀ g, pv.2 ≠ J.obj g)) ∧
      ((segLeavesF fields).map Prod.fst).Nodup ∧
      (∀ (p : List Str) (w : J),
        (p, w) ∈ segLeavesF fields ↔
          treeGet (J.obj fields) p = some w ∧ ∀ g, w ≠ J.obj g) := by
  intro n
  induction n with
  | zero =>
    intro fields hsz
    exact absurd hsz (by cases fields <;> simp)
  | succ n ihn =>
    intro fields hsz hclean
    cases fields with
    | nil =>
      refine ⟨fun pv hpv => absurd hpv (by simp [segLeavesF]),
        by simp [segLeavesF], ?_⟩
      intro p w
      simp only [segLeavesF, List.not_mem_nil, false_iff]
      rintro ⟨hget, hnon⟩
      cases p with
      | nil => exact hnon [] (Option.some.inj hget).symm
      | cons a b =>
        rw [treeGet_empty_obj (a :: b) (by simp)] at hget
        simp at hget
    | cons kv rest =>
      obtain ⟨k, v0⟩ := kv
      have hndk : k ∉ keysOf rest ∧ (keysOf rest).Nodup := by
        cases hclean with
        | obj _ hnd _ _ =>
          simp only [List.map_cons, List.nodup_cons] at hnd
          exact hnd
      have hkeyk : k ≠ [] ∧ '.' ∉ k := by
        cases hclean with
        | obj _ _ hkeys _ => exact hkeys (k, v0) (List.mem_cons_self _ _)
      have hv0clean : CleanT v0 := by
        cases hclean with
        | obj _ _ _ hsub => exact hsub (k, v0) (List.mem_cons_self _ _)
      have hrestclean : CleanT (J.obj rest) := cleanT_obj_tail (k, v0) rest hclean
      have hszrest : sizeOf rest ≤ n := by simp at hsz; omega
      obtain ⟨ihR1, ihR2, ihR3⟩ := ihn rest hszrest hrestclean
      have hlookk : lookupA ((k, v0) :: rest) k = some v0 := by
        rw [lookupA, if_pos rfl]
      have hlookne : ∀ h' : Str, h' ≠ k →
          lookupA ((k, v0) :: rest) h' = lookupA rest h' := by
        intro h' hne
        rw [lookupA, if_neg (fun hc => hne hc.symm)]
      have hliftR : ∀ (p : List Str) (w : J), (p, w) ∈ segLeavesF rest →
          treeGet (J.obj ((k, v0) :: rest)) p = treeGet (J.obj rest) p := by
        intro p w hmem
        obtain ⟨⟨h', t', hp, hmemk⟩, _, _⟩ := ihR1 (p, w) hmem
        have hne : h' ≠ k := fun hc => hndk.1 (hc ▸ hmemk)
        have hp' : p = h' :: t' := hp
        rw [hp']
        exact treeGet_cons_congr _ _ h' t' (hlookne h' hne)
      cases v0 with
      | prim p0 =>
        refine ⟨?_, ?_, ?_⟩
        · intro pv hpv
          simp only [segLeavesF] at hpv
          rcases List.mem_cons.mp hpv with h | h
          · subst h
            refine ⟨⟨k, [], rfl, List.mem_cons_self _ _⟩, ?_, by simp⟩
            intro s hs
            rw [show s = k from by simpa using hs]
            exact hkeyk
          · obtain ⟨⟨h', t', hp, hmemk⟩, hsegs, hnon⟩ := ihR1 pv h
            exact ⟨⟨h', t', hp, List.mem_cons_of_mem _ hmemk⟩, hsegs, hnon⟩
        · simp only [segLeavesF, List.map_cons, List.nodup_cons]
          refine ⟨?_, ihR2⟩
          intro hcontr
          rcases List.mem_map.mp hcontr with ⟨pv, hpv, hfst⟩
          obtain ⟨⟨h', t', hp, hmemk⟩, _, _⟩ := ihR1 pv hpv
          rw [hp] at hfst
          have : h' = k := (List.cons.inj hfst).1
          exact hndk.1 (this ▸ hmemk)
        · intro p w
          simp only [segLeavesF, List.mem_cons]
          constructor
          · intro hm
            rcases hm with hm | hm
            · obtain ⟨hp, hw⟩ := Prod.mk.inj hm
              subst hp
              subst hw
              refine ⟨?_, by simp⟩
              rw [treeGet_cons_some _ k [] _ hlookk]
              rfl
            · obtain ⟨hget, hnon⟩ := (ihR3 p w).mp hm
              exact ⟨(hliftR p w hm).trans hget, hnon⟩
          · rintro ⟨hget, hnon⟩
            cases p with
            | nil => exact absurd (Option.some.inj hget).symm (hnon _)
            | cons h' t' =>
              by_cases hk : h' = k
              · subst hk
                rw [treeGet_cons_some _ h' t' _ hlookk] at hget
                cases t' with
                | nil =>
                  left
                  rw [show w = J.prim p0 from (Option.some.inj hget).symm]
                | cons x y => simp [treeGet] at hget
              · right
                have hlift := treeGet_cons_congr ((k, J.prim p0) :: rest) rest h' t'
                  (hlookne h' hk)
                rw [hlift] at hget
                exact (ihR3 (h' :: t') w).mpr ⟨hget, hnon⟩
      | arr xs =>
        refine ⟨?_, ?_, ?_⟩
        · intro pv hpv
          simp only [segLeavesF] at hpv
          rcases List.mem_cons.mp hpv with h | h
          · subst h
            refine ⟨⟨k, [], rfl, List.mem_cons_self _ _⟩, ?_, by simp⟩
            intro s hs
            rw [show s = k from by simpa using hs]
            exact hkeyk
          · obtain ⟨⟨h', t', hp, hmemk⟩, hsegs, hnon⟩ := ihR1 pv h
            exact ⟨⟨h', t', hp, List.mem_cons_of_mem _ hmemk⟩, hsegs, hnon⟩
        · simp only [segLeavesF, List.map_cons, List.nodup_cons]
          refine ⟨?_, ihR2⟩
          intro hcontr
          rcases List.mem_map.mp hcontr with ⟨pv, hpv, hfst⟩
          obtain ⟨⟨h', t', hp, hmemk⟩, _, _⟩ := ihR1 pv hpv
          rw [hp] at hfst
          have : h' = k := (List.cons.inj hfst).1
          exact hndk.1 (this ▸ hmemk)
        · intro p w
          simp only [segLeavesF, List.mem_cons]
          constructor
          · intro hm
            rcases hm with hm | hm
            · obtain ⟨hp, hw⟩ := Prod.mk.inj hm
              subst hp
              subst hw
              refine ⟨?_, by simp⟩
              rw [treeGet_cons_some _ k [] _ hlookk]
              rfl
            · obtain ⟨hget, hnon⟩ := (ihR3 p w).mp hm
              exact ⟨(hliftR p w hm).trans hget, hnon⟩
          · rintro ⟨hget, hnon⟩
            cases p with
            | nil => exact absurd (Option.some.inj hget).symm (hnon _)
            | cons h' t' =>
              by_cases hk : h' = k
              · subst hk
                rw [treeGet_cons_some _ h' t' _ hlookk] at hget
                cases t' with
                | nil =>
                  left
                  rw [show w = J.arr xs from (Option.some.inj hget).symm]
                | cons x y => simp [treeGet] at hget
              · right
                have hlift := treeGet_cons_congr ((k, J.arr xs) :: rest) rest h' t'
                  (hlookne h' hk)
                rw [hlift] at hget
                exact (ihR3 (h' :: t') w).mpr ⟨hget, hnon⟩
      | obj sub =>
        have hszsub : sizeOf sub ≤ n := by simp at hsz; omega
        obtain ⟨ihS1, ihS2, ihS3⟩ := ihn sub hszsub hv0clean
        refine ⟨?_, ?_, ?_⟩
        · intro pv hpv
          simp only [segLeavesF] at hpv
          rcases List.mem_append.mp hpv with h | h
          · rcases List.mem_map.mp h with ⟨pv0, hpv0, hEq⟩
            obtain ⟨_, hsegs0, hnon0⟩ := ihS1 pv0 hpv0
            subst hEq
            refine ⟨⟨k, pv0.1, rfl, List.mem_cons_self _ _⟩, ?_, hnon0⟩
            intro s hs
            rcases List.mem_cons.mp hs with hs | hs
            · rw [hs]; exact hkeyk
            · exact hsegs0 s hs
          · obtain ⟨⟨h', t', hp, hmemk⟩, hsegs, hnon⟩ := ihR1 pv h
            exact ⟨⟨h', t', hp, List.mem_cons_of_mem _ hmemk⟩, hsegs, hnon⟩
        · simp only [segLeavesF, List.map_append, List.map_map]
          rw [List.nodup_append]
          refine ⟨?_, ihR2, ?_⟩
          · have hinj : Function.Injective (fun p : List Str => k :: p) :=
              fun x y hxy => (List.cons.inj hxy).2
            have h1 : (((segLeavesF sub).map Prod.fst).map (fun p => k :: p)).Nodup :=
              ihS2.map hinj
            rw [List.map_map] at h1
            exact h1
          · intro x hx hx2
            rcases List.mem_map.mp hx with ⟨pv0, _, hEq⟩
            rcases List.mem_map.mp hx2 with ⟨pv1, hpv1, hEq1⟩
            obtain ⟨⟨h', t', hp, hmemk⟩, _, _⟩ := ihR1 pv1 hpv1
            rw [← hEq1, hp] at hEq
            have : k = h' := (List.cons.inj hEq).1
            exact hndk.1 (this ▸ hmemk)
        · intro p w
          simp only [segLeavesF, List.mem_append]
          constructor
          · intro hm
            rcases hm with hm | hm
            · rcases List.mem_map.mp hm with ⟨pv0, hpv0, hEq⟩
              obtain ⟨p0, w0⟩ := pv0
              have hp : p = k :: p0 := ((Prod.mk.inj hEq).1).symm
              have hw : w = w0 := ((Prod.mk.inj hEq).2).symm
              obtain ⟨hget0, hnon0⟩ := (ihS3 p0 w0).mp hpv0
              subst hp
              subst hw
              refine ⟨?_, hnon0⟩
              rw [treeGet_cons_some _ k p0 _ hlookk]
              exact hget0
            · obtain ⟨hget, hnon⟩ := (ihR3 p w).mp hm
              exact ⟨(hliftR p w hm).trans hget, hnon⟩
          · rintro ⟨hget, hnon⟩
            cases p with
            | nil => exact absurd (Option.some.inj hget).symm (hnon _)
            | cons h' t' =>
              by_cases hk : h' = k
              · subst hk
                rw [treeGet_cons_some _ h' t' _ hlookk] at hget
                left
                have hmem0 : (t', w) ∈ segLeavesF sub := (ihS3 t' w).mpr ⟨hget, hnon⟩
                exact List.mem_map.mpr ⟨(t', w), hmem0, rfl⟩
              · right
                have hlift := treeGet_cons_congr ((k, J.obj sub) :: rest) rest h' t'
                  (hlookne h' hk)
                rw [hlift] at hget
                exact (ihR3 (h' :: t') w).mpr ⟨hget, hnon⟩

theorem flattenFields_eq_append :
    ∀ (fields : List (Str × J)) (pre : Str) (acc : List (Str × J)),
      ((segLeavesF fields).map (fun pv => joinSegs pre pv.1)).Nodup →
      (∀ pv ∈ segLeavesF fields, joinSegs pre pv.1 ∉ keysOf acc) →
      flattenFields fields pre acc =
        acc ++ (segLeavesF fields).map (fun pv => (joinSegs pre pv.1, pv.2)) := by
  intro fields pre acc
  induction fields, pre, acc using flattenFields.induct with
  | case1 pre acc =>
    intro _ _
    simp [flattenFields, segLeavesF]
  | case2 k sub rest pre acc ih1 ih2 =>
    intro hnd hfresh
    have hmapL : (segLeavesF ((k, J.obj sub) :: rest)).map
        (fun pv => joinSegs pre pv.1) =
        (segLeavesF sub).map (fun pv => joinSegs (dotJoin pre k) pv.1) ++
          (segLeavesF rest).map (fun pv => joinSegs pre pv.1) := by
      simp only [segLeavesF, List.map_append, List.map_map]
      rfl
    rw [hmapL] at hnd
    rw [List.nodup_append] at hnd
    obtain ⟨hnd1, hnd2, hdisj⟩ := hnd
    have hfresh1 : ∀ pv ∈ segLeavesF sub,
        joinSegs (dotJoin pre k) pv.1 ∉ keysOf acc := by
      intro pv hpv
      have := hfresh (k :: pv.1, pv.2) (by
        simp only [segLeavesF, List.mem_append]
        exact Or.inl (List.mem_map.mpr ⟨pv, hpv, rfl⟩))
      exact this
    have hfresh2 : ∀ pv ∈ segLeavesF rest, joinSegs pre pv.1 ∉ keysOf acc := by
      intro pv hpv
      exact hfresh pv (by
        simp only [segLeavesF, List.mem_append]
        exact Or.inr hpv)
    have step1 := ih1 hnd1 hfresh1
    rw [step1] at ih2
    have hfresh2' : ∀ pv ∈ segLeavesF rest,
        joinSegs pre pv.1 ∉ keysOf (acc ++
          (segLeavesF sub).map (fun pv => (joinSegs (dotJoin pre k) pv.1, pv.2))) := by
      intro pv hpv
      rw [keysOf_append]
      intro hmem
      rcases List.mem_append.mp hmem with h | h
      · exact hfresh2 pv hpv h
      · have hinE1 : joinSegs pre pv.1 ∈
            (segLeavesF sub).map (fun pv => joinSegs (dotJoin pre k) pv.1) := by
          have : keysOf ((segLeavesF sub).map
              (fun pv => (joinSegs (dotJoin pre k) pv.1, pv.2))) =
              (segLeavesF sub).map (fun pv => joinSegs (dotJoin pre k) pv.1) := by
            unfold keysOf
            rw [List.map_map]
            rfl
          rw [this] at h
          exact h
        exact hdisj.symm (List.mem_map.mpr ⟨pv, hpv, rfl⟩) hinE1
    have step2 := ih2 hnd2 hfresh2'
    rw [show flattenFields ((k, J.obj sub) :: rest) pre acc =
      flattenFields rest pre (flattenFields sub (dotJoin pre k) acc) from by
        simp only [flattenFields]]
    rw [step1, step2]
    rw [List.append_assoc]
    congr 1
    simp only [segLeavesF, List.map_append, List.map_map]
    rfl
  | case3 k p0 rest pre acc ih =>
    intro hnd hfresh
    have hkey0 : joinSegs pre [k] = dotJoin pre k := rfl
    have hndhead : joinSegs pre [k] ∉
        (segLeavesF rest).map (fun pv => joinSegs pre pv.1) ∧
        ((segLeavesF rest).map (fun pv => joinSegs pre pv.1)).Nodup := by
      have := hnd
      simp only [segLeavesF, List.map_cons, List.nodup_cons] at this
      exact this
    have hfreshhead : joinSegs pre [k] ∉ keysOf acc :=
      hfresh ([k], J.prim p0) (by simp [segLeavesF])
    have hsetA : setA acc (dotJoin pre k) (J.prim p0) =
        acc ++ [(dotJoin pre k, J.prim p0)] :=
      setA_append acc _ _ (hkey0 ▸ hfreshhead)
    rw [hsetA] at ih
    have hfresh' : ∀ pv ∈ segLeavesF rest,
        joinSegs pre pv.1 ∉ keysOf (acc ++ [(dotJoin pre k, J.prim p0)]) := by
      intro pv hpv
      rw [keysOf_append]
      intro hmem
      rcases List.mem_append.mp hmem with h | h
      · exact hfresh pv (by
          simp only [segLeavesF, List.mem_cons]
          exact Or.inr hpv) h
      · have : joinSegs pre pv.1 = dotJoin pre k := by simpa [keysOf] using h
        exact hndhead.1 (by
          rw [hkey0, ← this]
          exact List.mem_map.mpr ⟨pv, hpv, rfl⟩)
    have step := ih hndhead.2 hfresh'
    rw [show flattenFields ((k, J.prim p0) :: rest) pre acc =
      flattenFields rest pre (setA acc (dotJoin pre k) (J.prim p0)) from by
        simp only [flattenFields]]
    rw [hsetA, step, List.append_assoc]
    congr 1
    simp only [segLeavesF, List.map_cons]
    rfl
  | case4 k xs rest pre acc ih =>
    intro hnd hfresh
    have hkey0 : joinSegs pre [k] = dotJoin pre k := rfl
    have hndhead : joinSegs pre [k] ∉
        (segLeavesF rest).map (fun pv => joinSegs pre pv.1) ∧
        ((segLeavesF rest).map (fun pv => joinSegs pre pv.1)).Nodup := by
      have := hnd
      simp only [segLeavesF, List.map_cons, List.nodup_cons] at this
      exact this
    have hfreshhead : joinSegs pre [k] ∉ keysOf acc :=
      hfresh ([k], J.arr xs) (by simp [segLeavesF])
    have hsetA : setA acc (dotJoin pre k) (J.arr xs) =
        acc ++ [(dotJoin pre k, J.arr xs)] :=
      setA_append acc _ _ (hkey0 ▸ hfreshhead)
    rw [hsetA] at ih
    have hfresh' : ∀ pv ∈ segLeavesF rest,
        joinSegs pre pv.1 ∉ keysOf (acc ++ [(dotJoin pre k, J.arr xs)]) := by
      intro pv hpv
      rw [keysOf_append]
      intro hmem
      rcases List.mem_append.mp hmem with h | h
      · exact hfresh pv (by
          simp only [segLeavesF, List.mem_cons]
          exact Or.inr hpv) h
      · have : joinSegs pre pv.1 = dotJoin pre k := by simpa [keysOf] using h
        exact hndhead.1 (by
          rw [hkey0, ← this]
          exact List.mem_map.mpr ⟨pv, hpv, rfl⟩)
    have step := ih hndhead.2 hfresh'
    rw [show flattenFields ((k, J.arr xs) :: rest) pre acc =
      flattenFields rest pre (setA acc (dotJoin pre k) (J.arr xs)) from by
        simp only [flattenFields]]
    rw [hsetA, step, List.append_assoc]
    congr 1
    simp only [segLeavesF, List.map_cons]
    rfl

theorem flatten_lookup (fields : List (Str × J)) (hclean : CleanT (J.obj fields)) :
    ∀ (k : Str) (w : J),
      lookupA (flattenFields fields [] []) k = some w ↔
        (treeGet (J.obj fields) (splitDots k) = some w ∧ ∀ g, w ≠ J.obj g) := by
  obtain ⟨hP1, hP2, hP3⟩ := segLeavesF_main (sizeOf fields) fields (le_refl _) hclean
  have hjoin : ∀ pv ∈ segLeavesF fields, joinSegs [] pv.1 = joinDots pv.1 := by
    intro pv hpv
    obtain ⟨⟨h', t', hp, _⟩, hsegs, _⟩ := hP1 pv hpv
    rw [hp, joinSegs_cons]
    have hh : h' ≠ [] := (hsegs h' (by rw [hp]; exact List.mem_cons_self _ _)).1
    rw [show dotJoin [] h' = h' from by simp [dotJoin]]
    exact joinSegs_eq_joinDots t' h' hh
  have hsplit : ∀ pv ∈ segLeavesF fields, splitDots (joinDots pv.1) = pv.1 := by
    intro pv hpv
    obtain ⟨⟨h', t', hp, _⟩, hsegs, _⟩ := hP1 pv hpv
    exact splitDots_joinDots pv.1 (by rw [hp]; simp) (fun s hs => (hsegs s hs).2)
  have hndE : ((segLeavesF fields).map (fun pv => joinSegs [] pv.1)).Nodup := by
    rw [List.map_congr_left hjoin]
    have hmap2 : (segLeavesF fields).map (fun pv => joinDots pv.1) =
        ((segLeavesF fields).map Prod.fst).map joinDots := by
      rw [List.map_map]
      rfl
    rw [hmap2]
    refine List.Nodup.map_on ?_ hP2
    intro x hx y hy hxy
    rcases List.mem_map.mp hx with ⟨pvx, hpvx, hfx⟩
    rcases List.mem_map.mp hy with ⟨pvy, hpvy, hfy⟩
    have hxs : splitDots (joinDots x) = x := by
      rw [← hfx]
      exact hsplit pvx hpvx
    have hys : splitDots (joinDots y) = y := by
      rw [← hfy]
      exact hsplit pvy hpvy
    rw [← hxs, ← hys, hxy]
  have hflat : flattenFields fields [] [] =
      (segLeavesF fields).map (fun pv => (joinDots pv.1, pv.2)) := by
    rw [flattenFields_eq_append fields [] [] hndE (by simp [keysOf])]
    rw [List.nil_append]
    apply List.map_congr_left
    intro pv hpv
    rw [hjoin pv hpv]
  have hndK : (keysOf (flattenFields fields [] [])).Nodup := by
    rw [hflat]
    unfold keysOf
    rw [List.map_map]
    have : (Prod.fst ∘ fun pv : List Str × J => (joinDots pv.1, pv.2)) =
        (fun pv : List Str × J => joinDots pv.1) := rfl
    rw [this, ← List.map_congr_left hjoin]
    exact hndE
  intro k w
  rw [lookupA_some_iff_mem _ hndK k w, hflat]
  constructor
  · intro hm
    rcases List.mem_map.mp hm with ⟨pv, hpv, hEq⟩
    obtain ⟨p0, w0⟩ := pv
    have hkey : joinDots p0 = k := (Prod.mk.inj hEq).1
    have hval : w0 = w := (Prod.mk.inj hEq).2
    obtain ⟨hget, hnon⟩ := (hP3 p0 w0).mp hpv
    have hp0 : splitDots k = p0 := by
      rw [← hkey]
      exact hsplit (p0, w0) hpv
    rw [hp0, ← hval]
    exact ⟨hget, hnon⟩
  · rintro ⟨hget, hnon⟩
    have hm : (splitDots k, w) ∈ segLeavesF fields := (hP3 (splitDots k) w).mpr ⟨hget, hnon⟩
    refine List.mem_map.mpr ⟨(splitDots k, w), hm, ?_⟩
    rw [show (splitDots k, w).1 = splitDots k from rfl, joinDots_splitDots]

/-- Invariant of the `to_object_hierarchy` fold: after inserting exactly
the entries of `done`, descending the tree yields each inserted value at
its key's path, an object at every proper prefix of an inserted path, and
nothing anywhere else; the tree's object spine is clean. -/
def TreeInv (fields : List (Str × J)) (done : List (Str × J)) : Prop :=
  (∀ kv ∈ done, treeGet (J.obj fields) (splitDots kv.1) = some kv.2) ∧
  (∀ q : List Str, q ≠ [] → (∀ kv ∈ done, ¬ q <+: splitDots kv.1) →
    treeGet (J.obj fields) q = none) ∧
  (∀ q : List Str, q ≠ [] →
    (∃ kv ∈ done, q <+: splitDots kv.1 ∧ q ≠ splitDots kv.1) →
    ∃ g, treeGet (J.obj fields) q = some (J.obj g)) ∧
  CleanT (J.obj fields)

theorem splitDots_injective (a b : Str) (h : splitDots a = splitDots b) : a = b := by
  rw [← joinDots_splitDots a, ← joinDots_splitDots b, h]


theorem toObj_fold :
    ∀ (todo done fields : List (Str × J)),
      (∀ kv ∈ done ++ todo, [] ∉ splitDots kv.1) →
      (keysOf (done ++ todo)).Nodup →
      (∀ kv1 ∈ done ++ todo, ∀ kv2 ∈ done ++ todo, kv1.1 ≠ kv2.1 →
        ¬ (splitDots kv1.1 <+: splitDots kv2.1)) →
      (∀ kv ∈ done ++ todo, ∀ g, kv.2 ≠ J.obj g) →
      TreeInv fields done →
      ∃ fields',
        todo.foldlM
          (fun acc kv =>
            if kv.1 = [] then Except.ok acc else buildH acc (splitDots kv.1) kv.2)
          (J.obj fields) = Except.ok (J.obj fields') ∧
        TreeInv fields' (done ++ todo) := by
  intro todo
  induction todo with
  | nil =>
    intro done fields _ _ _ _ hinv
    exact ⟨fields, rfl, by simpa using hinv⟩
  | cons kv rest ih =>
    intro done fields h1 h2 h3 h4 hinv
    obtain ⟨k, v⟩ := kv
    have hmemkv : ((k, v) : Str × J) ∈ done ++ (k, v) :: rest :=
      List.mem_append.mpr (Or.inr (List.mem_cons_self _ _))
    have hkne : k ≠ [] := by
      intro hknil
      subst hknil
      exact h1 ([], v) hmemkv (by simp [splitDots])
    have hpne : splitDots k ≠ [] := splitDots_ne_nil k
    obtain ⟨hA, hB, hC, hD⟩ := hinv
    have hkdone : k ∉ keysOf done := by
      intro hmem
      rw [keysOf_append] at h2
      rcases List.nodup_append.mp h2 with ⟨_, _, hdisj⟩
      exact hdisj hmem (List.mem_cons_self k (keysOf rest))
    have hpref : ∀ q : List Str, q ≠ [] → q <+: splitDots k → q ≠ splitDots k →
        treeGet (J.obj fields) q = none ∨
          ∃ g, treeGet (J.obj fields) q = some (J.obj g) := by
      intro q hqne hqpre hqneq
      by_cases hex : ∃ kv' ∈ done, q <+: splitDots kv'.1
      · obtain ⟨kv', hkv', hqpre'⟩ := hex
        by_cases hqeq : q = splitDots kv'.1
        · exfalso
          have hne : kv'.1 ≠ k := by
            intro hkeq
            exact hqneq (by rw [hqeq, hkeq])
          have := h3 kv' (List.mem_append.mpr (Or.inl hkv')) (k, v) hmemkv hne
          rw [← hqeq] at this
          exact this hqpre
        · exact Or.inr (hC q hqne ⟨kv', hkv', hqpre', hqeq⟩)
      · left
        exact hB q hqne (fun kv' hkv' hcontr => hex ⟨kv', hkv', hcontr⟩)
    obtain ⟨f1, hf1⟩ := buildH_ok v (splitDots k) fields hpne hpref
    have hclean1 : CleanT (J.obj f1) := by
      refine buildH_clean v ?_ (splitDots k) fields (J.obj f1) hD ?_ hf1
      · cases v with
        | prim p => exact CleanT.prim p
        | arr xs => exact CleanT.arr xs
        | obj g => exact absurd rfl (h4 (k, J.obj g) hmemkv g)
      · intro s hs
        exact ⟨fun hsnil => h1 (k, v) hmemkv (hsnil ▸ hs),
          splitDots_no_dot k s hs⟩
    obtain ⟨hg1, hg2, hg3, hg4⟩ := buildH_get v (splitDots k) fields f1 hf1
    have hvnonobj : ∀ g, v ≠ J.obj g := h4 (k, v) hmemkv
    have hdiv : ∀ kv' ∈ done, ¬ splitDots kv'.1 <+: splitDots k ∧
        ¬ splitDots k <+: splitDots kv'.1 := by
      intro kv' hkv'
      have hne : kv'.1 ≠ k := by
        intro hkeq
        exact hkdone (hkeq ▸ List.mem_map.mpr ⟨kv', hkv', rfl⟩)
      exact ⟨h3 kv' (List.mem_append.mpr (Or.inl hkv')) (k, v) hmemkv hne,
        h3 (k, v) hmemkv kv' (List.mem_append.mpr (Or.inl hkv')) (fun hc => hne hc.symm)⟩
    have hinv1 : TreeInv f1 (done ++ [(k, v)]) := by
      refine ⟨?_, ?_, ?_, hclean1⟩
      · intro kv' hkv'
        rcases List.mem_append.mp hkv' with hmem | hmem
        · obtain ⟨hd1, hd2⟩ := hdiv kv' hmem
          rw [hg2 (splitDots kv'.1) hd1 hd2]
          exact hA kv' hmem
        · rw [show kv' = (k, v) from by simpa using hmem]
          exact hg1
      · intro q hqne hnopre
        have hnoprek : ¬ q <+: splitDots k :=
          hnopre (k, v) (List.mem_append.mpr (Or.inr (List.mem_cons_self _ _)))
        by_cases hkq : splitDots k <+: q
        · obtain ⟨ext, hext⟩ := hkq
          have hextne : ext ≠ [] := by
            intro hc
            subst hc
            rw [List.append_nil] at hext
            exact hnoprek (by rw [hext])
          rw [← hext, hg4 ext hextne]
          exact treeGet_nonobj v hvnonobj ext hextne
        · rw [hg2 q hnoprek hkq]
          exact hB q hqne
            (fun kv' hkv' => hnopre kv' (List.mem_append.mpr (Or.inl hkv')))
      · intro q hqne hex
        obtain ⟨kv', hkv', hqpre, hqneq⟩ := hex
        rcases List.mem_append.mp hkv' with hmem | hmem
        · by_cases hqk : q <+: splitDots k
          · by_cases hqeqk : q = splitDots k
            · exfalso
              rw [hqeqk] at hqpre
              exact (hdiv kv' hmem).2 hqpre
            · exact hg3 q hqk hqeqk
          · by_cases hkq : splitDots k <+: q
            · exfalso
              have hkpre : splitDots k <+: splitDots kv'.1 := hkq.trans hqpre
              exact (hdiv kv' hmem).2 hkpre
            · rw [hg2 q hqk hkq]
              exact hC q hqne ⟨kv', hmem, hqpre, hqneq⟩
        · have hkv'eq : kv' = (k, v) := by simpa using hmem
          rw [hkv'eq] at hqpre hqneq
          exact hg3 q hqpre hqneq
    have hperm : (done ++ [(k, v)]) ++ rest = done ++ (k, v) :: rest := by
      rw [List.append_assoc, List.singleton_append]
    obtain ⟨fields', hfold, hinv'⟩ := ih (done ++ [(k, v)]) f1
      (by rw [hperm]; exact h1)
      (by rw [hperm]; exact h2)
      (by rw [hperm]; exact h3)
      (by rw [hperm]; exact h4)
      hinv1
    refine ⟨fields', ?_, by rw [← hperm]; exact hinv'⟩
    rw [List.foldlM_cons]
    rw [show (if (k, v).1 = [] then Except.ok (J.obj fields)
        else buildH (J.obj fields) (splitDots (k, v).1) (k, v).2) =
        Except.ok (J.obj f1) from by rw [if_neg hkne]; exact hf1]
    exact hfold

theorem treeInv_init : TreeInv [] [] := by
  refine ⟨fun kv hkv => absurd hkv (List.not_mem_nil kv), ?_, ?_,
    CleanT.obj [] (by simp) (by simp) (by simp)⟩
  · intro q hq _
    exact treeGet_empty_obj q hq
  · rintro q _ ⟨kv, hkv, _⟩
    exact absurd hkv (List.not_mem_nil kv)

/-- C2 (amended): the flatten/unflatten round trip holds for flat maps with
pairwise distinct keys, no empty path segments, scalar values, and — the
amendment — pairwise prefix-free keys (no key's segment path is a proper
prefix of another's): `to_object_hierarchy` then succeeds and
`to_name_value_pair` of the result equals the original map as a Python
dict (`==`, order-insensitive). -/
theorem claim_C2_roundtrip_amended :
    ∀ m : List (Str × J),
      (∀ kv ∈ m, [] ∉ splitDots kv.1) →
      (keysOf m).Nodup →
      (∀ kv1 ∈ m, ∀ kv2 ∈ m, kv1.1 ≠ kv2.1 →
        ¬ (splitDots kv1.1 <+: splitDots kv2.1)) →
      (∀ kv ∈ m, ∃ p : Prim, kv.2 = J.prim p) →
      ∃ fields, to_object_hierarchy m = Except.ok (J.obj fields) ∧
        to_name_value_pair (J.obj fields) = Except.ok (flattenFields fields [] []) ∧
        dictEqv (flattenFields fields [] []) m := by
  intro m hm1 hm2 hm3 hm4
  have hm4' : ∀ kv ∈ m, ∀ g, kv.2 ≠ J.obj g := by
    intro kv hkv g
    obtain ⟨p, hp⟩ := hm4 kv hkv
    rw [hp]
    simp
  obtain ⟨fields, hfold, hinv⟩ := toObj_fold m [] [] hm1 hm2 hm3 hm4' treeInv_init
  have hinvm : TreeInv fields m := hinv
  obtain ⟨hA, hB, hC, hD⟩ := hinvm
  refine ⟨fields, hfold, rfl, ?_⟩
  intro key
  cases hm : lookupA m key with
  | some w =>
    have hmem : (key, w) ∈ m := (lookupA_some_iff_mem m hm2 key w).mp hm
    have hget : treeGet (J.obj fields) (splitDots key) = some w := hA (key, w) hmem
    have hnon : ∀ g, w ≠ J.obj g := hm4' (key, w) hmem
    rw [(flatten_lookup fields hD key w).mpr ⟨hget, hnon⟩]
  | none =>
    have hnotmem : key ∉ keysOf m := (lookupA_none_iff m key).mp hm
    cases hf : lookupA (flattenFields fields [] []) key with
    | none => rfl
    | some w =>
      exfalso
      obtain ⟨hget, hnon⟩ := (flatten_lookup fields hD key w).mp hf
      by_cases hex : ∃ kv ∈ m, splitDots key <+: splitDots kv.1
      · obtain ⟨kv, hkv, hpre⟩ := hex
        by_cases heq : splitDots key = splitDots kv.1
        · refine hnotmem ?_
          rw [splitDots_injective key kv.1 heq]
          exact List.mem_map.mpr ⟨kv, hkv, rfl⟩
        · obtain ⟨g, hobj⟩ :=
            hC (splitDots key) (splitDots_ne_nil key) ⟨kv, hkv, hpre, heq⟩
          rw [hget] at hobj
          exact hnon g (Option.some.inj hobj)
      · have hnone := hB (splitDots key) (splitDots_ne_nil key)
          (fun kv hkv hcontr => hex ⟨kv, hkv, hcontr⟩)
        rw [hget] at hnone
        exact Option.noConfusion hnone

/-- Witness for the amended C2 at a concrete two-key map. -/
theorem claim_C2_roundtrip_amended_witness :
    ∃ fields,
      to_object_hierarchy
          [(("a.b").data, J.prim (Prim.int 1)), (("a.c").data, J.prim (Prim.int 2))] =
        Except.ok (J.obj fields) ∧
      to_name_value_pair (J.obj fields) = Except.ok (flattenFields fields [] []) ∧
      dictEqv (flattenFields fields [] [])
        [(("a.b").data, J.prim (Prim.int 1)), (("a.c").data, J.prim (Prim.int 2))] :=
  claim_C2_roundtrip_amended
    [(("a.b").data, J.prim (Prim.int 1)), (("a.c").data, J.prim (Prim.int 2))]
    (by decide) (by decide) (by decide)
    (by
      intro kv hkv
      rcases List.mem_cons.mp hkv with h | h
      · exact ⟨Prim.int 1, by rw [h]⟩
      · rcases List.mem_cons.mp h with h2 | h2
        · exact ⟨Prim.int 2, by rw [h2]⟩
        · exact absurd h2 (List.not_mem_nil kv))

/-- C2 counterexample: the map `{"A.B": 1, "A": 2}` has pairwise distinct
keys, no empty segments and scalar values, yet converting it to a
hierarchy and flattening back loses the key `A.B` entirely — the final
assignment for key `A` silently replaces the sub-dict built for `A.B` —
so the round trip does not return a map equal to the input. -/
theorem claim_C2_counterexample :
    ((keysOf [(("A.B").data, J.prim (Prim.int 1)),
        (("A").data, J.prim (Prim.int 2))]).Nodup ∧
      (∀ kv ∈ [(("A.B").data, J.prim (Prim.int 1)),
          (("A").data, J.prim (Prim.int 2))], [] ∉ splitDots kv.1)) ∧
    to_object_hierarchy
        [(("A.B").data, J.prim (Prim.int 1)), (("A").data, J.prim (Prim.int 2))] =
      Except.ok (J.obj [(("A").data, J.prim (Prim.int 2))]) ∧
    to_name_value_pair (J.obj [(("A").data, J.prim (Prim.int 2))]) =
      Except.ok [(("A").data, J.prim (Prim.int 2))] ∧
    ¬ dictEqv [(("A").data, J.prim (Prim.int 2))]
        [(("A.B").data, J.prim (Prim.int 1)), (("A").data, J.prim (Prim.int 2))] := by
  refine ⟨⟨by decide, by decide⟩, rfl, ?_, ?_⟩
  · simp [to_name_value_pair, flattenFields, dotJoin, setA]
  · intro hcontr
    have hAB := hcontr ("A.B").data
    rw [show lookupA [(("A").data, J.prim (Prim.int 2))] ("A.B").data = none from rfl]
      at hAB
    rw [show lookupA [(("A.B").data, J.prim (Prim.int 1)),
        (("A").data, J.prim (Prim.int 2))] ("A.B").data =
        some (J.prim (Prim.int 1)) from rfl] at hAB
    exact Option.noConfusion hAB

/-- C4: during unflatten, when a key's path must descend through a segment
that already holds a scalar placed by an earlier key, the conversion
raises (the `StructureConflict` model of Python's `TypeError`) and
produces no result — it does not silently overwrite the scalar. -/
theorem claim_C4_structure_conflict :
    ∀ (m1 rest : List (Str × J)) (k : Str) (v : J) (fields : List (Str × J))
      (q : List Str) (s : Prim),
      to_object_hierarchy m1 = Except.ok (J.obj fields) →
      q <+: splitDots k → q ≠ [] → q ≠ splitDots k →
      treeGet (J.obj fields) q = some (J.prim s) →
      ∃ e, to_object_hierarchy (m1 ++ (k, v) :: rest) = Except.error e := by
  intro m1 rest k v fields q s hok hpre hne hneq hget
  have hkne : k ≠ [] := by
    intro hk
    subst hk
    obtain ⟨t, ht⟩ := hpre
    cases q with
    | nil => exact hne rfl
    | cons a b =>
      rw [show splitDots ([] : Str) = [[]] from rfl] at ht hneq
      rw [List.cons_append] at ht
      have ha : a = [] := (List.cons.inj ht).1
      have hbt : b ++ t = ([] : List Str) := (List.cons.inj ht).2
      have hb : b = [] := by
        cases b with
        | nil => rfl
        | cons x y => simp at hbt
      subst ha
      subst hb
      exact hneq rfl
  obtain ⟨e, he⟩ := buildH_fail v (splitDots k) fields ⟨q, s, hpre, hne, hneq, hget⟩
  refine ⟨e, ?_⟩
  unfold to_object_hierarchy at hok ⊢
  rw [List.foldlM_append, hok]
  rw [show (Except.ok (J.obj fields) >>= fun b =>
      List.foldlM (fun acc kv =>
        if kv.1 = [] then Except.ok acc else buildH acc (splitDots kv.1) kv.2)
        b ((k, v) :: rest)) =
      List.foldlM (fun acc kv =>
        if kv.1 = [] then Except.ok acc else buildH acc (splitDots kv.1) kv.2)
        (J.obj fields) ((k, v) :: rest) from rfl]
  rw [List.foldlM_cons]
  rw [show (if (k, v).1 = [] then Except.ok (J.obj fields)
      else buildH (J.obj fields) (splitDots (k, v).1) (k, v).2) =
      Except.error e from by rw [if_neg hkne]; exact he]
  rfl

/-- Witness for C4: inserting `A.B` after `A` already holds the scalar 1
aborts the conversion with an error. -/
theorem claim_C4_structure_conflict_witness :
    ∃ e, to_object_hierarchy
        [(("A").data, J.prim (Prim.int 1)), (("A.B").data, J.prim (Prim.int 2))] =
      Except.error e :=
  claim_C4_structure_conflict [(("A").data, J.prim (Prim.int 1))] []
    ("A.B").data (J.prim (Prim.int 2)) [(("A").data, J.prim (Prim.int 1))]
    [("A").data] (Prim.int 1) rfl ⟨[("B").data], rfl⟩ (by decide) (by decide) rfl
